import Mathlib

/-!
# Verification of the diff-digest release-note generator

A shallow embedding, in Lean 4, of the core logic of the diff-digest
repository:

* the partial-JSON extractor (`tryParseJSON`, `extractField`) used by the
  streaming route to pull `developer` / `marketing` values out of an
  incomplete JSON prefix,
* the streaming orchestrator loop of `generateNotes` (accumulation buffer,
  per-token note tracking, emitted events),
* the session handshake (`POST` allocating `prId-timestamp` session ids into
  the diff store, `GET` looking them up),
* the localStorage-backed record store (`getAllPRs`, `getPRById`, `savePR`,
  `savePRs`, `saveNotesForPR`, `getStreamingSession`).

The JavaScript `JSON.parse` / `JSON.stringify` pair is embedded as a
character-list parser and printer over an inductive `Json` type, together
with a proved round-trip theorem; regex extraction is embedded as an
explicit leftmost-match scanner over character lists.

Modelling conventions:

* Strings are Lean `String`s (lists of unicode scalar values); JavaScript's
  UTF-16 code-unit view of `.length` / `.substring` coincides with it on the
  inputs treated here.
* JSON numbers are modelled exactly as `mantissa × 10^exponent` pairs of
  integers (the integral fragment suffices for every value the code stores;
  IEEE-754 rounding of exotic literals is outside the embedding).
* Effectful JavaScript (localStorage, the in-memory diff `Map`, `Date.now()`)
  is modelled by explicit state passing; upstream network tokens are an input
  list of strings.
-/

namespace DiffDigest

/-! ## JSON values

`Json` is the result type of the embedded `JSON.parse`.  Objects keep their
member list in source order; as in a JavaScript object built by `JSON.parse`,
a later duplicate key wins on property access (`jsGet`). -/

inductive Json where
  | null
  | bool (b : Bool)
  | num (mant : Int) (exp10 : Int)
  | str (s : String)
  | arr (items : List Json)
  | obj (fields : List (String × Json))
deriving Repr

/-- Property access `j[k]` as `JSON.parse` output behaves in JavaScript:
on an object the *last* binding of the key wins (duplicate keys in the JSON
text overwrite earlier ones), on every other value the result is `undefined`
(`none` here).  Accessing a property of `null` throws in JavaScript; callers
of `jsGet` below case on `Json.null` separately where that matters. -/
def jsGet (j : Json) (k : String) : Option Json :=
  match j with
  | .obj fields => (fields.reverse.find? (fun f => f.1 == k)).map (·.2)
  | _ => none

/-! ## The embedded `JSON.parse`

A fuel-indexed recursive-descent parser over `List Char`, faithful to the
JSON grammar accepted by `JSON.parse`: whitespace between tokens, `null`,
booleans, numbers (no leading zeros, optional fraction and exponent),
strings with escapes (including `\uXXXX`, combining surrogate pairs), arrays
and objects.  Lone-surrogate escapes, which JavaScript can represent but a
Lean `Char` cannot, are rejected. -/

/-- The four JSON whitespace characters (`JSON.parse`, not the regex class). -/
def jsonWs (c : Char) : Bool :=
  c == ' ' || c == '\t' || c == '\n' || c == '\r'

def skipJsonWs (cs : List Char) : List Char :=
  cs.dropWhile jsonWs

/-- Numeric value of a decimal digit run, most significant first. -/
def digitsVal (ds : List Char) : Nat :=
  ds.foldl (fun a c => a * 10 + (c.toNat - '0'.toNat)) 0

def hexDigitVal (c : Char) : Option Nat :=
  if '0' ≤ c ∧ c ≤ '9' then some (c.toNat - '0'.toNat)
  else if 'a' ≤ c ∧ c ≤ 'f' then some (c.toNat - 'a'.toNat + 10)
  else if 'A' ≤ c ∧ c ≤ 'F' then some (c.toNat - 'A'.toNat + 10)
  else none

def hexQuad (a b c d : Char) : Option Nat := do
  let va ← hexDigitVal a
  let vb ← hexDigitVal b
  let vc ← hexDigitVal c
  let vd ← hexDigitVal d
  some (((va * 16 + vb) * 16 + vc) * 16 + vd)

/-- Single-character escapes of the JSON grammar. -/
def escValue (c : Char) : Option Char :=
  match c with
  | '"' => some '"'
  | '\\' => some '\\'
  | '/' => some '/'
  | 'b' => some (Char.ofNat 8)
  | 'f' => some (Char.ofNat 12)
  | 'n' => some '\n'
  | 'r' => some '\r'
  | 't' => some '\t'
  | _ => none

/-- Body of a JSON string after its opening quote.  Accumulates decoded
characters in reverse; stops at the closing quote.  Raw control characters
are rejected, as `JSON.parse` does. -/
def parseStringBody (acc : List Char) (cs : List Char) : Option (String × List Char) :=
  match cs with
  | [] => none
  | '"' :: rest => some (String.mk acc.reverse, rest)
  | '\\' :: 'u' :: a :: b :: c :: d :: rest =>
      (match hexQuad a b c d with
       | none => none
       | some n =>
         if n < 0xd800 ∨ 0xdfff < n then
           parseStringBody (Char.ofNat n :: acc) rest
         else if n ≤ 0xdbff then
           -- high surrogate: JavaScript pairs it with a following low one
           (match rest with
            | '\\' :: 'u' :: a2 :: b2 :: c2 :: d2 :: rest2 =>
                (match hexQuad a2 b2 c2 d2 with
                 | some m =>
                   if 0xdc00 ≤ m ∧ m ≤ 0xdfff then
                     parseStringBody
                       (Char.ofNat (0x10000 + (n - 0xd800) * 0x400 + (m - 0xdc00)) :: acc) rest2
                   else none
                 | none => none)
            | _ => none)
         else none)
  | '\\' :: e :: rest =>
      (match escValue e with
       | some ch => parseStringBody (ch :: acc) rest
       | none => none)
  | c :: rest =>
      if c.toNat < 32 then none else parseStringBody (c :: acc) rest
termination_by cs.length
decreasing_by all_goals (simp_all; try omega)

/-- Optional fraction part: `.` followed by at least one digit, or nothing. -/
def parseFracPart (cs : List Char) : Option (List Char × List Char) :=
  match cs with
  | '.' :: r =>
      let ds := r.takeWhile Char.isDigit
      if ds.isEmpty then none else some (ds, r.dropWhile Char.isDigit)
  | _ => some ([], cs)

/-- Sign of an exponent and the characters after it. -/
def expSign : List Char → Int × List Char
  | '-' :: r' => (-1, r')
  | '+' :: r' => (1, r')
  | r => (1, r)

/-- Optional exponent part: `e`/`E`, optional sign, at least one digit. -/
def parseExpPart (cs : List Char) : Option (Int × List Char) :=
  match cs with
  | 'e' :: r | 'E' :: r =>
      let ds := (expSign r).2.takeWhile Char.isDigit
      if ds.isEmpty then none
      else some ((expSign r).1 * (digitsVal ds : Int),
        (expSign r).2.dropWhile Char.isDigit)
  | _ => some (0, cs)

/-- The part of a JSON number after the optional minus sign: integer part
without leading zeros, optional fraction, optional exponent.  The exact
decimal value is kept as `mant × 10^exp10`. -/
def parseNumberCore (neg : Bool) (cs1 : List Char) : Option (Json × List Char) :=
  let ids := cs1.takeWhile Char.isDigit
  if ids.isEmpty then none
  else if ids.head? == some '0' && ids.length != 1 then none
  else
    match parseFracPart (cs1.dropWhile Char.isDigit) with
    | none => none
    | some (fds, cs3) =>
      match parseExpPart cs3 with
      | none => none
      | some (e, cs4) =>
        some (.num ((if neg then -1 else 1) * (digitsVal (ids ++ fds) : Int))
          (e - fds.length), cs4)

/-- A JSON number: optional minus sign, then `parseNumberCore`. -/
def parseNumber (cs : List Char) : Option (Json × List Char) :=
  match cs with
  | '-' :: r => parseNumberCore true r
  | _ => parseNumberCore false cs

mutual
/-- One JSON value, fuel-indexed (fuel strictly exceeding the input length
is always enough, since every step consumes input). -/
def parseValue (fuel : Nat) (cs : List Char) : Option (Json × List Char) :=
  match fuel with
  | 0 => none
  | fuel + 1 =>
    match skipJsonWs cs with
    | 'n' :: 'u' :: 'l' :: 'l' :: r => some (.null, r)
    | 't' :: 'r' :: 'u' :: 'e' :: r => some (.bool true, r)
    | 'f' :: 'a' :: 'l' :: 's' :: 'e' :: r => some (.bool false, r)
    | '"' :: r =>
        (match parseStringBody [] r with
         | some (s, r') => some (.str s, r')
         | none => none)
    | '[' :: r =>
        (match skipJsonWs r with
         | ']' :: r' => some (.arr [], r')
         | cs' =>
           match parseItems fuel cs' with
           | some (es, r') => some (.arr es, r')
           | none => none)
    | '{' :: r =>
        (match skipJsonWs r with
         | '}' :: r' => some (.obj [], r')
         | cs' =>
           match parseFields fuel cs' with
           | some (ms, r') => some (.obj ms, r')
           | none => none)
    | c :: r =>
        if c == '-' || c.isDigit then parseNumber (c :: r) else none
    | [] => none

/-- One or more comma-separated array items, up to the closing `]`. -/
def parseItems (fuel : Nat) (cs : List Char) : Option (List Json × List Char) :=
  match fuel with
  | 0 => none
  | fuel + 1 =>
    match parseValue fuel cs with
    | none => none
    | some (v, r) =>
      match skipJsonWs r with
      | ',' :: r' =>
          (match parseItems fuel r' with
           | some (vs, r'') => some (v :: vs, r'')
           | none => none)
      | ']' :: r' => some ([v], r')
      | _ => none

/-- One or more comma-separated object members, up to the closing `}`. -/
def parseFields (fuel : Nat) (cs : List Char) :
    Option (List (String × Json) × List Char) :=
  match fuel with
  | 0 => none
  | fuel + 1 =>
    match skipJsonWs cs with
    | '"' :: r =>
        (match parseStringBody [] r with
         | none => none
         | some (k, r1) =>
           match skipJsonWs r1 with
           | ':' :: r2 =>
               (match parseValue fuel r2 with
                | none => none
                | some (v, r3) =>
                  match skipJsonWs r3 with
                  | ',' :: r4 =>
                      (match parseFields fuel r4 with
                       | some (ms, r5) => some ((k, v) :: ms, r5)
                       | none => none)
                  | '}' :: r4 => some ([(k, v)], r4)
                  | _ => none)
           | _ => none)
    | _ => none
end

/-- The embedded `JSON.parse`: whole-document parse, demanding that only
whitespace remains after the value. -/
def jsonParse (s : String) : Option Json :=
  match parseValue (s.data.length + 1) s.data with
  | some (j, r) => if skipJsonWs r = [] then some j else none
  | none => none

/-! ## The embedded regexes

`tryParseJSON` / `extractField` and the inline fallback of `generateNotes`
use three regex shapes:

* `/\{[\s\S]*\}/` — greedy, so it matches from the first `{` that has some
  `}` after it to the last `}` of the text (`braceSpan`);
* `"field"\s*:\s*"([^"]*)"` — a closed quoted value (`closedMatchAt`);
* `"field"\s*:\s*"([^"]*)` — a still-open quoted value (`openMatchAt`).

The two key patterns are deterministic (the greedy `\s*` and `([^"]*)` stop
at the first character outside their class and nothing after them can force
backtracking into the class), so they are embedded as a direct scanner:
`scanFirst` tries every start position left to right, as `RegExp.exec`
does. -/

/-- The JavaScript regex `\s` class (ASCII part plus the Unicode space
characters JavaScript includes). -/
def regexWs (c : Char) : Bool :=
  [9, 10, 11, 12, 13, 32, 0xa0, 0x1680, 0x2028, 0x2029,
   0x202f, 0x205f, 0x3000, 0xfeff].contains c.toNat
  || (0x2000 ≤ c.toNat && c.toNat ≤ 0x200a)

/-- ASCII lowercasing, the canonicalization the `i` flag performs on the
ASCII-only patterns used here. -/
def asciiLower (c : Char) : Char :=
  if 'A' ≤ c ∧ c ≤ 'Z' then Char.ofNat (c.toNat + 32) else c

/-- One deterministic pattern element: an exact character, a
case-insensitive character, or greedy `\s*`. -/
inductive Tok where
  | lit (c : Char)
  | litCI (c : Char)
  | wsStar
deriving Repr, DecidableEq

/-- Match a token sequence at the start of the input, returning the
remainder on success. -/
def matchToks : List Tok → List Char → Option (List Char)
  | [], cs => some cs
  | .lit c :: ps, x :: cs => if x = c then matchToks ps cs else none
  | .lit _ :: _, [] => none
  | .litCI c :: ps, x :: cs =>
      if asciiLower x = asciiLower c then matchToks ps cs else none
  | .litCI _ :: _, [] => none
  | .wsStar :: ps, cs => matchToks ps (cs.dropWhile regexWs)

/-- The pattern `"field"\s*:\s*"` common to both key regexes. -/
def keyPat (ci : Bool) (field : List Char) : List Tok :=
  .lit '"' :: (field.map (fun c => if ci then .litCI c else .lit c) ++
    [.lit '"', .wsStar, .lit ':', .wsStar, .lit '"'])

/-- The capture of `"field"\s*:\s*"([^"]*)` at one position: the greedy
non-quote run after the key pattern (no closing quote demanded). -/
def openMatchAt (ci : Bool) (field : List Char) (cs : List Char) : Option (List Char) :=
  (matchToks (keyPat ci field) cs).map (List.takeWhile (· != '"'))

/-- The capture of `"field"\s*:\s*"([^"]*)"` at one position: as
`openMatchAt`, but demanding the closing quote after the run. -/
def closedMatchAt (ci : Bool) (field : List Char) (cs : List Char) : Option (List Char) :=
  match matchToks (keyPat ci field) cs with
  | none => none
  | some r =>
      if (r.dropWhile (· != '"')).isEmpty then none
      else some (r.takeWhile (· != '"'))

/-- Leftmost-match search: try the pattern at every start position, left to
right, as `RegExp.exec` does. -/
def scanFirst (f : List Char → Option (List Char)) : List Char → Option (List Char)
  | [] => f []
  | c :: cs =>
      match f (c :: cs) with
      | some r => some r
      | none => scanFirst f cs

/-- First capture of the closed-value regex over the whole text. -/
def closedCapture (ci : Bool) (text field : String) : Option String :=
  (scanFirst (closedMatchAt ci field.data) text.data).map String.mk

/-- First capture of the open-value regex over the whole text. -/
def openCapture (ci : Bool) (text field : String) : Option String :=
  (scanFirst (openMatchAt ci field.data) text.data).map String.mk

/-- The second half of `extractField`: the open-value attempt
(`partialMatch && partialMatch[1]` in the source, where an empty capture is
falsy). -/
def extractFieldOpen (text fieldName : String) : Option String :=
  match openCapture true text fieldName with
  | some p => if p ≠ "" then some p else none
  | none => none

/-- `extractField` of the source: the closed-value regex first (returning
its capture only when nonempty, JavaScript truthiness), then the open-value
regex, then `null`.  Both regexes carry the `i` flag. -/
def extractField (text fieldName : String) : Option String :=
  match closedCapture true text fieldName with
  | some c => if c ≠ "" then some c else extractFieldOpen text fieldName
  | none => extractFieldOpen text fieldName

/-- The greedy `/\{[\s\S]*\}/` match: from the first `{` (with some `}`
after it) to the last `}` of the text. -/
def braceSpan (s : String) : Option String :=
  let t := s.data.dropWhile (· != '{')
  let r := t.reverse.dropWhile (· != '}')
  if r.isEmpty then none else some (String.mk r.reverse)

/-- The object `{ developer: developer || "", marketing: marketing || "" }`
built by `tryParseJSON` when both whole-document and brace-span parses
fail. -/
def fallbackObj (text : String) : Json :=
  .obj [("developer", .str ((extractField text "developer").getD "")),
        ("marketing", .str ((extractField text "marketing").getD ""))]

/-- `tryParseJSON` of the source: whole-document `JSON.parse`, else
`JSON.parse` of the greedy `{...}` span, else regex field extraction. -/
def tryParseJSON (text : String) : Json :=
  match jsonParse text with
  | some j => j
  | none =>
      match braceSpan text with
      | some span =>
          match jsonParse span with
          | some j => j
          | none => fallbackObj text
      | none => fallbackObj text

/-- Modelled from the spec's words (§4.1 step 3): "for each field name,
attempt a regex match for a closed quoted string; if not found, fall back
to a match for an open quoted string", defaulting to the empty string.
Stated separately from `extractField` (which it is proved to agree with)
because the source guards each capture by JavaScript truthiness. -/
def specFieldValue (text fieldName : String) : String :=
  match closedCapture true text fieldName with
  | some c => c
  | none => (openCapture true text fieldName).getD ""

/-! ## The streaming orchestrator (`generateNotes` of the SSE route)

`generateNotes` holds three mutable values — `accumulatedContent`,
`currentDevNote`, `currentMarketingNote` — and for each streamed token with
truthy `delta.content` appends it to the buffer, re-extracts both fields,
and emits a `chunk` event; after the loop it emits a `complete` event with
the accumulated text.  The two note variables start as `""` but receive
whatever value `tryParseJSON(...).developer` / `.marketing` holds when that
property is defined, so they are modelled as `Json`.  Property access on
`null` throws in JavaScript, which routes those buffers through the `catch`
branch and its inline (case-sensitive) regexes. -/

/-- One server-sent event of the streaming route (the `data:` payloads). -/
inductive Event where
  | status (s : String)
  | chunk (content fullContent : String) (developer marketing : Json)
  | complete (content : String)
  | error (msg : String)
deriving Repr

/-- The loop state of `generateNotes`: `accumulatedContent`,
`currentDevNote`, `currentMarketingNote`. -/
structure NoteState where
  acc : String
  dev : Json
  mark : Json

def initialNoteState : NoteState :=
  ⟨"", .str "", .str ""⟩

/-- The `catch` branch of the loop for one field: the inline case-sensitive
closed regex first (assigning only a truthy capture), and the open regex
only when the closed one did not match at all. -/
def catchFieldUpdate (acc fieldName : String) (cur : Json) : Json :=
  match closedCapture false acc fieldName with
  | some c => if c ≠ "" then .str c else cur
  | none =>
      match openCapture false acc fieldName with
      | some p => if p ≠ "" then .str p else cur
      | none => cur

/-- The `try` branch of the loop for one field: overwrite the tracked note
whenever `tryParseJSON`'s result has the property defined (`!== undefined`),
with whatever value it holds — including an empty or non-string one. -/
def tryFieldUpdate (parsed : Json) (fieldName : String) (cur : Json) : Json :=
  match jsGet parsed fieldName with
  | some v => v
  | none => cur

/-- The updated `(currentDevNote, currentMarketingNote)` pair after one
re-extraction over the grown buffer — via the `catch` branch when
`tryParseJSON` returned `null` (property access throws there). -/
def noteUpdates (acc : String) (st : NoteState) : Json × Json :=
  match tryParseJSON acc with
  | .null =>
      (catchFieldUpdate acc "developer" st.dev,
       catchFieldUpdate acc "marketing" st.mark)
  | parsed =>
      (tryFieldUpdate parsed "developer" st.dev,
       tryFieldUpdate parsed "marketing" st.mark)

/-- One iteration of the token loop.  A token with falsy (empty) content is
skipped entirely; otherwise the buffer grows, both notes are updated, and a
`chunk` event is emitted. -/
def noteStep (st : NoteState) (content : String) : NoteState × Option Event :=
  if content = "" then (st, none)
  else
    ({ acc := st.acc ++ content,
       dev := (noteUpdates (st.acc ++ content) st).1,
       mark := (noteUpdates (st.acc ++ content) st).2 },
     some (.chunk content (st.acc ++ content)
       (noteUpdates (st.acc ++ content) st).1
       (noteUpdates (st.acc ++ content) st).2))

/-- The token loop, threading the state and collecting the emitted events. -/
def runNotes (tokens : List String) : NoteState × List Event :=
  tokens.foldl
    (fun p tok =>
      let (st', ev) := noteStep p.1 tok
      (st', p.2 ++ ev.toList))
    (initialNoteState, [])

/-- All events `generateNotes` emits on a successfully delivered token
stream: the initial `status`, one `chunk` per truthy token, and the final
`complete` carrying the raw accumulated text. -/
def generateNotesEvents (tokens : List String) : List Event :=
  let (st, evs) := runNotes tokens
  .status "generating" :: (evs ++ [.complete st.acc])

/-! ## Diff truncation and the upstream prompt -/

/-- `diff.length > 15000 ? diff.substring(0, 15000) + "... [truncated]"
: diff`. -/
def truncatedDiff (diff : String) : String :=
  if diff.length > 15000 then String.mk (diff.data.take 15000) ++ "... [truncated]"
  else diff

/-- The user message sent upstream, embedding the truncated diff. -/
def userPrompt (prId description diff : String) : String :=
  "PR #" ++ prId ++ ": " ++ description ++
  "\n\nHere's the diff:\n```\n" ++ truncatedDiff diff ++
  "\n```\n\nBased on this diff, generate both developer and marketing release notes."

/-! ## The embedded `JSON.stringify`

Only what the storage layer writes is printed: default spacing (none), keys
in object-insertion order, strings escaped as `JSON.stringify` escapes them
(`\"`, `\\`, `\b`, `\t`, `\n`, `\f`, `\r`, `\u00xx` for other control
characters, everything else literal). -/

def hexDigitChar (n : Nat) : Char :=
  if n < 10 then Char.ofNat ('0'.toNat + n) else Char.ofNat ('a'.toNat + (n - 10))

def escapeChar : Char → List Char
  | '\\' => ['\\', '\\']
  | '"' => ['\\', '"']
  | '\t' => ['\\', 't']
  | '\r' => ['\\', 'r']
  | '\n' => ['\\', 'n']
  | c =>
      if c.toNat = 8 then ['\\', 'b']
      else if c.toNat = 12 then ['\\', 'f']
      else if c.toNat < 32 then
        ['\\', 'u', '0', '0', hexDigitChar (c.toNat / 16), hexDigitChar (c.toNat % 16)]
      else [c]

def printStr (s : String) : List Char :=
  '"' :: (s.data.flatMap escapeChar ++ ['"'])

/-- The decimal digit character of `n % 10`. -/
def digitChar10 (n : Nat) : Char :=
  Char.ofNat ('0'.toNat + n % 10)

/-- Decimal digits of `n`, most significant first — the characters of
JavaScript's number-to-string conversion on a nonnegative integer. -/
def natDecimal (n : Nat) : List Char :=
  if n < 10 then [digitChar10 n] else natDecimal (n / 10) ++ [digitChar10 n]
termination_by n
decreasing_by omega

/-- An integer's characters: optional minus sign, then decimal digits. -/
def intChars (i : Int) : List Char :=
  (if i < 0 then ['-'] else []) ++ natDecimal i.natAbs

mutual
def printJson : Json → List Char
  | .str s => printStr s
  | .num m e => intChars m ++ (if e = 0 then [] else 'e' :: intChars e)
  | .bool false => ['f', 'a', 'l', 's', 'e']
  | .bool true => ['t', 'r', 'u', 'e']
  | .null => ['n', 'u', 'l', 'l']
  | .arr items => '[' :: (printItems items ++ [']'])
  | .obj fields => '{' :: (printMembers fields ++ ['}'])
def printItems : List Json → List Char
  | [] => []
  | x :: xs => printJson x ++ printItemsRest xs
def printItemsRest : List Json → List Char
  | [] => []
  | x :: xs => ',' :: (printJson x ++ printItemsRest xs)
def printMembers : List (String × Json) → List Char
  | [] => []
  | (k, v) :: ms => printStr k ++ ':' :: (printJson v ++ printMembersRest ms)
def printMembersRest : List (String × Json) → List Char
  | [] => []
  | (k, v) :: ms => ',' :: (printStr k ++ ':' :: (printJson v ++ printMembersRest ms))
end

def stringify (j : Json) : String :=
  String.mk (printJson j)

/-! `intNums`: `num` nodes with exponent 0, which is everything the storage
layer writes.  The round-trip theorem is stated over this fragment (a
parsed `1.5` or `1e2` normalizes its exponent, so printing is not a strict
inverse there). -/
mutual
def intNums : Json → Prop
  | .num _ e => e = 0
  | .arr items => intNumsItems items
  | .obj fields => intNumsMembers fields
  | _ => True
def intNumsItems : List Json → Prop
  | [] => True
  | x :: xs => intNums x ∧ intNumsItems xs
def intNumsMembers : List (String × Json) → Prop
  | [] => True
  | (_, v) :: ms => intNums v ∧ intNumsMembers ms
end

/-! ## The session handshake (`POST` / `GET` of the SSE route)

The in-memory `diffStore : Map<string, string>` is an association list with
JavaScript `Map` semantics (`set` overwrites in place or appends, `get`
finds the unique binding, `delete` removes it).  `Date.now()` is an
explicit `now` argument. -/

def storeGet (store : List (String × String)) (k : String) : Option String :=
  (store.find? (fun p => p.1 == k)).map (·.2)

def storeSet (store : List (String × String)) (k v : String) : List (String × String) :=
  if store.any (fun p => p.1 == k) then
    store.map (fun p => if p.1 == k then (k, v) else p)
  else store ++ [(k, v)]

def storeDelete (store : List (String × String)) (k : String) : List (String × String) :=
  store.filter (fun p => p.1 != k)

/-- JavaScript truthiness of a possibly-absent string: `undefined` and `""`
are falsy. -/
def truthy : Option String → Bool
  | some s => s ≠ ""
  | none => false

/-- `` `${prId}-${Date.now()}` ``. -/
def mkSessionId (prId : String) (now : Nat) : String :=
  prId ++ "-" ++ String.mk (natDecimal now)

structure SubmitRequest where
  prId : Option String
  description : Option String
  diff : Option String

inductive PostResponse where
  | badRequest
  | ok (sessionId : String)
deriving Repr, DecidableEq

/-- The `POST` handler: validate the three fields (JavaScript truthiness),
allocate `` `${prId}-${Date.now()}` `` as the session id, store the diff
under it, and return the id. -/
def postSubmit (req : SubmitRequest) (now : Nat) (store : List (String × String)) :
    PostResponse × List (String × String) :=
  if truthy req.prId && truthy req.description && truthy req.diff then
    let sessionId := mkSessionId (req.prId.getD "") now
    (.ok sessionId, storeSet store sessionId (req.diff.getD ""))
  else (.badRequest, store)

inductive GetResponse where
  | badRequest
  | notFound
  | eventStream (diff : String)
deriving Repr, DecidableEq

/-- The `GET` handler: validate the three query parameters, look the session
up in the diff store — absent means an immediate 404 with the store
untouched — and otherwise open the event stream over the stored diff.  (On
the stream path the store state shown is after the handler's `finally`
cleanup, which deletes the consumed session.) -/
def getStream (sessionId prId description : Option String)
    (store : List (String × String)) : GetResponse × List (String × String) :=
  if truthy sessionId && truthy prId && truthy description then
    match storeGet store (sessionId.getD "") with
    | none => (.notFound, store)
    | some diff => (.eventStream diff, storeDelete store (sessionId.getD ""))
  else (.badRequest, store)

/-! ## The Local Record Store (`notesStorage.ts`)

localStorage is modelled as availability plus the two raw string entries;
every read goes through the embedded `JSON.parse`, every write through the
embedded `JSON.stringify`.  (A stored string that parses but does not have
the record-list shape would make the JavaScript callers fail on property
access downstream; such states, which the module itself never writes, are
outside the typed decoding.) -/

structure Notes where
  developer : String
  marketing : String
deriving Repr, DecidableEq

structure PR where
  id : String
  description : String
  url : String
  diff : String
  notes : Option Notes
  timestamp : Int
deriving Repr, DecidableEq

structure StreamingSession where
  id : String
  sessionId : String
  partialDeveloper : String
  partialMarketing : String
  timestamp : Int
deriving Repr, DecidableEq

/-- `typeof window`, `localStorage` content under the two keys. -/
structure Storage where
  available : Bool
  prData : Option String
  streamingData : Option String
deriving Repr, DecidableEq

def Notes.toJson (n : Notes) : Json :=
  .obj [("developer", .str n.developer), ("marketing", .str n.marketing)]

def PR.toJson (pr : PR) : Json :=
  .obj [("id", .str pr.id), ("description", .str pr.description),
        ("url", .str pr.url), ("diff", .str pr.diff),
        ("notes", match pr.notes with | some n => n.toJson | none => .null),
        ("timestamp", .num pr.timestamp 0)]

def StreamingSession.toJson (s : StreamingSession) : Json :=
  .obj [("id", .str s.id), ("sessionId", .str s.sessionId),
        ("partialDeveloper", .str s.partialDeveloper),
        ("partialMarketing", .str s.partialMarketing),
        ("timestamp", .num s.timestamp 0)]

/-- `JSON.stringify` of the stored record list. -/
def encodePRs (prs : List PR) : String :=
  stringify (.arr (prs.map PR.toJson))

def encodeSessions (ss : List StreamingSession) : String :=
  stringify (.arr (ss.map StreamingSession.toJson))

def decodeString : Json → Option String
  | .str s => some s
  | _ => none

def decodeNotes : Json → Option (Option Notes)
  | .null => some none
  | .obj fields => do
      let d ← decodeString (← jsGet (.obj fields) "developer")
      let m ← decodeString (← jsGet (.obj fields) "marketing")
      some (some ⟨d, m⟩)
  | _ => none

def decodeInt : Json → Option Int
  | .num m e => if e = 0 then some m else none
  | _ => none

def decodePR (j : Json) : Option PR := do
  let id ← decodeString (← jsGet j "id")
  let description ← decodeString (← jsGet j "description")
  let url ← decodeString (← jsGet j "url")
  let diff ← decodeString (← jsGet j "diff")
  let notes ← decodeNotes (← jsGet j "notes")
  let timestamp ← decodeInt (← jsGet j "timestamp")
  some ⟨id, description, url, diff, notes, timestamp⟩

def decodeSession (j : Json) : Option StreamingSession := do
  let id ← decodeString (← jsGet j "id")
  let sessionId ← decodeString (← jsGet j "sessionId")
  let pd ← decodeString (← jsGet j "partialDeveloper")
  let pm ← decodeString (← jsGet j "partialMarketing")
  let timestamp ← decodeInt (← jsGet j "timestamp")
  some ⟨id, sessionId, pd, pm, timestamp⟩

def decodePRList : Json → Option (List PR)
  | .arr items => items.mapM decodePR
  | _ => none

def decodeSessionList : Json → Option (List StreamingSession)
  | .arr items => items.mapM decodeSession
  | _ => none

/-- `getAllPRs`: `[]` when the window is absent, the key is missing, or the
stored data does not parse (the `try/catch` around `JSON.parse`). -/
def getAllPRs (st : Storage) : List PR :=
  if !st.available then []
  else
    match st.prData with
    | none => []
    | some raw =>
        match jsonParse raw with
        | none => []
        | some j => (decodePRList j).getD []

/-- `getPRById`: first stored record with the given id, else `null`. -/
def getPRById (st : Storage) (id : String) : Option PR :=
  (getAllPRs st).find? (fun pr => pr.id == id)

/-- The comparator `(a, b) => b.timestamp - a.timestamp`: sort descending by
timestamp (`Array.prototype.sort` — stable, but no claim needs
stability). -/
def byNewest (a b : PR) : Bool :=
  b.timestamp ≤ a.timestamp

/-- Replace the first record bearing the given record's id, keeping its
position (the `findIndex` + assignment of `savePR`, and the in-place value
update of `Map.set`). -/
def replaceFirstById (prs : List PR) (pr : PR) : List PR :=
  match prs with
  | [] => []
  | item :: rest =>
      if item.id == pr.id then pr :: rest else item :: replaceFirstById rest pr

/-- Upsert: replace the first record with the same id in place, else
append. -/
def upsertById (prs : List PR) (pr : PR) : List PR :=
  if prs.any (fun item => item.id == pr.id) then replaceFirstById prs pr
  else prs ++ [pr]

/-- `savePR`: replace the record at its id (or append it), re-sort newest
first, write back. -/
def savePR (st : Storage) (pr : PR) : Storage :=
  if !st.available then st
  else
    let merged := upsertById (getAllPRs st) pr
    { st with prData := some (encodePRs (merged.mergeSort byNewest)) }

/-- `savePRs`: build a `Map` keyed by id from the existing records, `set`
each new record over it, take the values in insertion order (`Map.set`
keeps the first position and overwrites the value, so the whole build is a
fold of `upsertById` from the empty map), re-sort newest first, write
back. -/
def savePRs (st : Storage) (newPRs : List PR) : Storage :=
  if !st.available then st
  else
    let merged := (getAllPRs st ++ newPRs).foldl upsertById []
    { st with prData := some (encodePRs (merged.mergeSort byNewest)) }

/-- `saveNotesForPR`: look the record up (a missing one is a no-op), set its
notes, refresh its timestamp to `Date.now()`, and `savePR` it. -/
def saveNotesForPR (st : Storage) (id developer marketing : String) (now : Int) : Storage :=
  match getPRById st id with
  | none => st
  | some pr => savePR st { pr with notes := some ⟨developer, marketing⟩, timestamp := now }

/-- `getStreamingSession`: as `getAllPRs`/`find` but over the
session-scratch key. -/
def getStreamingSession (st : Storage) (id : String) : Option StreamingSession :=
  if !st.available then none
  else
    match st.streamingData with
    | none => none
    | some raw =>
        match jsonParse raw with
        | none => none
        | some j => ((decodeSessionList j).getD []).find? (fun s => s.id == id)

/-! ## Auxiliary measures used by the statements and proofs -/

/-- A remainder that cannot extend a parsed number: empty, or headed by a
character that is neither a digit nor `.`, `e`, `E`.  Every inter-token
position of printed JSON(`,`, `]`, `}`, end of text) qualifies. -/
def numStop (cs : List Char) : Bool :=
  match cs with
  | [] => true
  | c :: _ => !(c.isDigit || c == '.' || c == 'e' || c == 'E')

/-- Quote characters a token consumes when it matches. -/
def tokQ : Tok → Nat
  | .lit c => if c = '"' then 1 else 0
  | .litCI _ => 0
  | .wsStar => 0

/-- Tokens that can never consume a quote character unnoticed: a
case-insensitive literal must not canonicalize to `"`. -/
def tokOK : Tok → Bool
  | .litCI c => asciiLower c != '"'
  | _ => true

/-- Quote characters the whole pattern consumes. -/
def patQ (ps : List Tok) : Nat :=
  (ps.map tokQ).sum

def Event.isError : Event → Bool
  | .error _ => true
  | _ => false

/-! # Proof development

First the printer/parser round-trip (used by the storage claims), then the
regex-scanner lemmas (used by the extractor claims), then the claim
theorems themselves. -/

/-! ## Decimal digits -/

theorem digitChar10_spec (n : Nat) :
    (digitChar10 n).isDigit = true ∧ (digitChar10 n).toNat = 48 + n % 10 ∧
    digitChar10 n ≠ '-' ∧ (digitChar10 n = '0' ↔ n % 10 = 0) := by
  have h : n % 10 < 10 := Nat.mod_lt _ (by omega)
  unfold digitChar10
  revert h
  generalize n % 10 = k
  intro h
  match k, h with
  | 0, _ => exact ⟨by decide, by decide, by decide, by decide⟩
  | 1, _ => exact ⟨by decide, by decide, by decide, by decide⟩
  | 2, _ => exact ⟨by decide, by decide, by decide, by decide⟩
  | 3, _ => exact ⟨by decide, by decide, by decide, by decide⟩
  | 4, _ => exact ⟨by decide, by decide, by decide, by decide⟩
  | 5, _ => exact ⟨by decide, by decide, by decide, by decide⟩
  | 6, _ => exact ⟨by decide, by decide, by decide, by decide⟩
  | 7, _ => exact ⟨by decide, by decide, by decide, by decide⟩
  | 8, _ => exact ⟨by decide, by decide, by decide, by decide⟩
  | 9, _ => exact ⟨by decide, by decide, by decide, by decide⟩

theorem natDecimal_eq (n : Nat) :
    natDecimal n =
      if n < 10 then [digitChar10 n] else natDecimal (n / 10) ++ [digitChar10 n] := by
  rw [natDecimal]

theorem natDecimal_ne_nil (n : Nat) : natDecimal n ≠ [] := by
  rw [natDecimal_eq]
  split <;> simp

theorem natDecimal_digits (n : Nat) : ∀ c ∈ natDecimal n, c.isDigit = true := by
  induction n using Nat.strongRecOn with
  | _ n ih =>
    rw [natDecimal_eq]
    split
    · intro c hc
      rw [List.mem_singleton] at hc
      exact hc ▸ (digitChar10_spec n).1
    · intro c hc
      rw [List.mem_append] at hc
      rcases hc with h | h
      · exact ih (n / 10) (by omega) c h
      · rw [List.mem_singleton] at h
        exact h ▸ (digitChar10_spec n).1

theorem natDecimal_head_ne_zero (n : Nat) (hn : 0 < n) :
    ∀ c t, natDecimal n = c :: t → c ≠ '0' := by
  induction n using Nat.strongRecOn with
  | _ n ih =>
    rw [natDecimal_eq]
    split
    · intro c t hct
      rw [List.cons.injEq] at hct
      intro h0
      have := ((digitChar10_spec n).2.2.2).mp (hct.1 ▸ h0)
      omega
    · intro c t hct
      obtain ⟨c', t', he⟩ : ∃ c' t', natDecimal (n / 10) = c' :: t' := by
        cases h : natDecimal (n / 10) with
        | nil => exact absurd h (natDecimal_ne_nil _)
        | cons a b => exact ⟨a, b, rfl⟩
      rw [he, List.cons_append, List.cons.injEq] at hct
      exact hct.1 ▸ ih (n / 10) (by omega) (by omega) c' t' he

theorem digitsVal_append_one (ds : List Char) (c : Char) :
    digitsVal (ds ++ [c]) = digitsVal ds * 10 + (c.toNat - 48) := by
  simp [digitsVal, List.foldl_append]

theorem digitsVal_natDecimal (n : Nat) : digitsVal (natDecimal n) = n := by
  induction n using Nat.strongRecOn with
  | _ n ih =>
    rw [natDecimal_eq]
    split
    · simp [digitsVal, (digitChar10_spec n).2.1]
      omega
    · rw [digitsVal_append_one, ih (n / 10) (by omega), (digitChar10_spec n).2.1]
      omega

/-! ## Digit runs under `takeWhile`/`dropWhile` -/

theorem takeWhile_nil_dropWhile {p : Char → Bool} {l : List Char}
    (h : l.takeWhile p = []) : l.dropWhile p = l := by
  conv_rhs => rw [← List.takeWhile_append_dropWhile p l]
  rw [h, List.nil_append]

theorem digitRun_split (ds rest : List Char) (hds : ∀ c ∈ ds, c.isDigit = true)
    (hrest : rest.takeWhile Char.isDigit = []) :
    (ds ++ rest).takeWhile Char.isDigit = ds ∧
    (ds ++ rest).dropWhile Char.isDigit = rest := by
  induction ds with
  | nil =>
    rw [List.nil_append]
    exact ⟨hrest, takeWhile_nil_dropWhile hrest⟩
  | cons c t iht =>
    have hc : c.isDigit = true := hds c (by simp)
    have ht := iht (fun x hx => hds x (by simp [hx]))
    simp [List.takeWhile_cons, List.dropWhile_cons, hc, ht.1, ht.2]

theorem numStop_facts {c : Char} {t : List Char} (h : numStop (c :: t) = true) :
    c.isDigit = false ∧ c ≠ '.' ∧ c ≠ 'e' ∧ c ≠ 'E' := by
  have h' := h
  rw [show numStop (c :: t) = !(c.isDigit || c == '.' || c == 'e' || c == 'E') from rfl,
    Bool.not_eq_true'] at h'
  simp only [Bool.or_eq_false_iff, beq_eq_false_iff_ne] at h'
  exact ⟨h'.1.1.1, h'.1.1.2, h'.1.2, h'.2⟩

theorem numStop_takeWhile {rest : List Char} (h : numStop rest = true) :
    rest.takeWhile Char.isDigit = [] := by
  cases rest with
  | nil => rfl
  | cons c t =>
    simp [List.takeWhile_cons, (numStop_facts h).1]

/-! ## `parseNumber` inverts `intChars` -/

theorem parseFracPart_stop {rest : List Char} (h : numStop rest = true) :
    parseFracPart rest = some ([], rest) := by
  cases rest with
  | nil => rfl
  | cons c t =>
    obtain ⟨-, hdot, -, -⟩ := numStop_facts h
    unfold parseFracPart
    split
    · rename_i r heq
      rw [List.cons.injEq] at heq
      exact absurd heq.1 hdot
    · rfl

theorem parseExpPart_stop {rest : List Char} (h : numStop rest = true) :
    parseExpPart rest = some (0, rest) := by
  cases rest with
  | nil => rfl
  | cons c t =>
    obtain ⟨-, -, he, hE⟩ := numStop_facts h
    unfold parseExpPart
    split
    · rename_i heq
      rw [List.cons.injEq] at heq
      exact absurd heq.1 he
    · rename_i heq
      rw [List.cons.injEq] at heq
      exact absurd heq.1 hE
    · rfl

theorem natDecimal_cons (n : Nat) :
    ∃ c t, natDecimal n = c :: t ∧ c.isDigit = true := by
  cases h : natDecimal n with
  | nil => exact absurd h (natDecimal_ne_nil n)
  | cons c t =>
    exact ⟨c, t, rfl, natDecimal_digits n c (h ▸ List.mem_cons_self c t)⟩

theorem parseNumberCore_natDecimal (neg : Bool) (n : Nat) (rest : List Char)
    (hr : numStop rest = true) :
    parseNumberCore neg (natDecimal n ++ rest)
      = some (.num ((if neg then -1 else 1) * (n : Int)) 0, rest) := by
  obtain ⟨c0, t0, h0, hc0⟩ := natDecimal_cons n
  have hrun := digitRun_split (natDecimal n) rest (natDecimal_digits n)
    (numStop_takeWhile hr)
  have hempty : (natDecimal n).isEmpty = false := by
    rw [h0]
    rfl
  have hlead : ((natDecimal n).head? == some '0' &&
      (natDecimal n).length != 1) = false := by
    by_cases hn : n < 10
    · rw [natDecimal_eq, if_pos hn]
      simp
    · have hne := natDecimal_head_ne_zero n (by omega) c0 t0 h0
      rw [h0]
      simp [hne]
  unfold parseNumberCore
  simp only [hrun.1, hrun.2, hempty, hlead, Bool.false_eq_true, if_false,
    parseFracPart_stop hr, parseExpPart_stop hr, List.append_nil,
    digitsVal_natDecimal, List.length_nil, Nat.cast_zero, sub_zero]

theorem parseNumber_intChars (m : Int) (rest : List Char) (hr : numStop rest = true) :
    parseNumber (intChars m ++ rest) = some (.num m 0, rest) := by
  by_cases hm : m < 0
  · have harg : intChars m ++ rest = '-' :: (natDecimal m.natAbs ++ rest) := by
      simp [intChars, hm]
    rw [harg]
    have : parseNumber ('-' :: (natDecimal m.natAbs ++ rest))
        = parseNumberCore true (natDecimal m.natAbs ++ rest) := rfl
    rw [this, parseNumberCore_natDecimal true m.natAbs rest hr]
    have hv : ((if (true : Bool) then (-1 : Int) else 1) * (m.natAbs : Int)) = m := by
      rw [show (if (true : Bool) then (-1 : Int) else 1) = -1 from rfl]
      omega
    rw [hv]
  · obtain ⟨c0, t0, h0, hc0⟩ := natDecimal_cons m.natAbs
    have harg : intChars m ++ rest = c0 :: (t0 ++ rest) := by
      simp [intChars, hm, h0]
    have hminus : c0 ≠ '-' := by
      intro he
      rw [he] at hc0
      exact absurd hc0 (by decide)
    rw [harg]
    unfold parseNumber
    split
    · rename_i r heq
      rw [List.cons.injEq] at heq
      exact absurd heq.1 hminus
    · rw [show c0 :: (t0 ++ rest) = natDecimal m.natAbs ++ rest from by
        rw [h0, List.cons_append]]
      rw [parseNumberCore_natDecimal false m.natAbs rest hr]
      have hv : ((if (false : Bool) then (-1 : Int) else 1) * (m.natAbs : Int)) = m := by
        rw [show (if (false : Bool) then (-1 : Int) else 1) = 1 from rfl]
        omega
      rw [hv]

/-! ## `parseStringBody` inverts `escapeChar` -/

theorem hexDigitVal_hexDigitChar (k : Nat) (h : k < 16) :
    hexDigitVal (hexDigitChar k) = some k := by
  match k, h with
  | 0, _ => decide
  | 1, _ => decide
  | 2, _ => decide
  | 3, _ => decide
  | 4, _ => decide
  | 5, _ => decide
  | 6, _ => decide
  | 7, _ => decide
  | 8, _ => decide
  | 9, _ => decide
  | 10, _ => decide
  | 11, _ => decide
  | 12, _ => decide
  | 13, _ => decide
  | 14, _ => decide
  | 15, _ => decide
  | _ + 16, h => omega

theorem parseStringBody_escape (c : Char) (acc rest : List Char) :
    parseStringBody acc (escapeChar c ++ rest) = parseStringBody (c :: acc) rest := by
  unfold escapeChar
  split
  · simp [parseStringBody, escValue]
  · simp [parseStringBody, escValue]
  · simp [parseStringBody, escValue]
  · simp [parseStringBody, escValue]
  · simp [parseStringBody, escValue]
  · rename_i h1 h2 h3 h4 h5
    by_cases h8 : c.toNat = 8
    · rw [if_pos h8]
      have hc : Char.ofNat 8 = c := by
        rw [← h8, Char.ofNat_toNat]
      simp [parseStringBody, escValue]
      rw [hc]
    · rw [if_neg h8]
      by_cases h12 : c.toNat = 12
      · rw [if_pos h12]
        have hc : Char.ofNat 12 = c := by
          rw [← h12, Char.ofNat_toNat]
        simp [parseStringBody, escValue]
        rw [hc]
      · rw [if_neg h12]
        by_cases hctl : c.toNat < 32
        · rw [if_pos hctl]
          have hq : hexQuad '0' '0' (hexDigitChar (c.toNat / 16)) (hexDigitChar (c.toNat % 16))
              = some c.toNat := by
            rw [hexQuad, show hexDigitVal '0' = some 0 from rfl,
              hexDigitVal_hexDigitChar (c.toNat / 16) (by omega),
              hexDigitVal_hexDigitChar (c.toNat % 16) (by omega)]
            simp only [Option.bind_eq_bind, Option.some_bind]
            congr 1
            omega
          simp only [List.cons_append, List.nil_append, parseStringBody, hq]
          rw [if_pos (by omega), Char.ofNat_toNat]
        · rw [if_neg hctl]
          simp only [List.cons_append, List.nil_append, parseStringBody]
          rw [parseStringBody.eq_def]
          split
          · rename_i heq
            simp at heq
          · rename_i heq
            rw [List.cons.injEq] at heq
            exact absurd heq.1 h2
          · rename_i heq
            rw [List.cons.injEq] at heq
            exact absurd heq.1 h1
          · rename_i heq
            rw [List.cons.injEq] at heq
            exact absurd heq.1 h1
          · rename_i x xs heq
            rw [List.cons.injEq] at heq
            obtain ⟨rfl, rfl⟩ := heq
            rw [if_neg (by omega)]

theorem parseStringBody_printed_aux (cs : List Char) : ∀ (acc rest : List Char),
    parseStringBody acc (cs.flatMap escapeChar ++ ('"' :: rest))
      = some (String.mk (acc.reverse ++ cs), rest) := by
  induction cs with
  | nil =>
    intro acc rest
    simp [parseStringBody]
  | cons c cs ih =>
    intro acc rest
    rw [List.flatMap_cons, List.append_assoc, parseStringBody_escape, ih (c :: acc) rest]
    simp

theorem parseStringBody_printed (s : String) (rest : List Char) :
    parseStringBody [] (s.data.flatMap escapeChar ++ ('"' :: rest)) = some (s, rest) := by
  rw [parseStringBody_printed_aux]
  rfl

/-! ## Printed values steer the parser -/

theorem skipJsonWs_cons {c : Char} (t : List Char) (hws : jsonWs c = false) :
    skipJsonWs (c :: t) = c :: t := by
  simp [skipJsonWs, List.dropWhile_cons, hws]

theorem digit_not_special {c : Char} (h : c.isDigit = true) :
    jsonWs c = false ∧ c ≠ ']' ∧ c ≠ '}' ∧ c ≠ 'n' ∧ c ≠ 't' ∧ c ≠ 'f' ∧
    c ≠ '"' ∧ c ≠ '[' ∧ c ≠ '{' ∧ c ≠ '-' := by
  refine ⟨?_, ?_, ?_, ?_, ?_, ?_, ?_, ?_, ?_, ?_⟩
  · by_contra hws
    rw [Bool.not_eq_false] at hws
    simp only [jsonWs, Bool.or_eq_true, beq_iff_eq] at hws
    rcases hws with ((he | he) | he) | he <;>
      (rw [he] at h; exact absurd h (by decide))
  all_goals (intro he; rw [he] at h; exact absurd h (by decide))

theorem intChars_head (m : Int) :
    ∃ c t, intChars m = c :: t ∧ (c == '-' || c.isDigit) = true ∧
      jsonWs c = false ∧ c ≠ ']' ∧ c ≠ '}' ∧ c ≠ 'n' ∧ c ≠ 't' ∧ c ≠ 'f' ∧
      c ≠ '"' ∧ c ≠ '[' ∧ c ≠ '{' := by
  by_cases hm : m < 0
  · refine ⟨'-', natDecimal m.natAbs, by simp [intChars, hm], by decide, by decide,
      by decide, by decide, by decide, by decide, by decide, by decide, by decide,
      by decide⟩
  · obtain ⟨c0, t0, h0, hc0⟩ := natDecimal_cons m.natAbs
    obtain ⟨hws, h1, h2, h3, h4, h5, h6, h7, h8, -⟩ := digit_not_special hc0
    exact ⟨c0, t0, by simp [intChars, hm, h0], by simp [hc0], hws, h1, h2, h3, h4,
      h5, h6, h7, h8⟩

theorem parseValue_startNumber (f : Nat) (c0 : Char) (t : List Char)
    (hnum : (c0 == '-' || c0.isDigit) = true) (hnws : jsonWs c0 = false)
    (hne1 : c0 ≠ 'n') (hne2 : c0 ≠ 't') (hne3 : c0 ≠ 'f')
    (hne4 : c0 ≠ '"') (hne5 : c0 ≠ '[') (hne6 : c0 ≠ '{') :
    parseValue (f + 1) (c0 :: t) = parseNumber (c0 :: t) := by
  rw [parseValue]
  rw [skipJsonWs_cons t hnws]
  split
  · rename_i heq
    rw [List.cons.injEq] at heq
    exact absurd heq.1 hne1
  · rename_i heq
    rw [List.cons.injEq] at heq
    exact absurd heq.1 hne2
  · rename_i heq
    rw [List.cons.injEq] at heq
    exact absurd heq.1 hne3
  · rename_i heq
    rw [List.cons.injEq] at heq
    exact absurd heq.1 hne4
  · rename_i heq
    rw [List.cons.injEq] at heq
    exact absurd heq.1 hne5
  · rename_i heq
    rw [List.cons.injEq] at heq
    exact absurd heq.1 hne6
  · rename_i heq
    rw [List.cons.injEq] at heq
    obtain ⟨rfl, rfl⟩ := heq
    rw [if_pos hnum]
  · rename_i heq
    exact absurd heq (by simp)

/-! ## The parser inverts the printer -/

theorem numStop_rbracket (r : List Char) : numStop (']' :: r) = true := rfl

theorem numStop_rbrace (r : List Char) : numStop ('}' :: r) = true := rfl

theorem numStop_comma (r : List Char) : numStop (',' :: r) = true := rfl

theorem printJson_head (j : Json) :
    ∃ c t, printJson j = c :: t ∧ jsonWs c = false ∧ c ≠ ']' ∧ c ≠ '}' := by
  cases j with
  | num m e =>
    obtain ⟨c, t, hc, hg, hws, hbr, hbc, -, -, -, -, -, -⟩ := intChars_head m
    refine ⟨c, t ++ (if e = 0 then [] else 'e' :: intChars e), ?_, hws, hbr, hbc⟩
    rw [show printJson (.num m e)
      = intChars m ++ (if e = 0 then [] else 'e' :: intChars e) from rfl, hc]
    simp
  | bool b =>
    cases b with
    | false =>
      refine ⟨'f', _, rfl, ?_⟩
      decide
    | true =>
      refine ⟨'t', _, rfl, ?_⟩
      decide
  | null =>
    refine ⟨'n', _, rfl, ?_⟩
    decide
  | str s =>
    refine ⟨'"', _, rfl, ?_⟩
    decide
  | arr items =>
    refine ⟨'[', _, rfl, ?_⟩
    decide
  | obj fields =>
    refine ⟨'{', _, rfl, ?_⟩
    decide

theorem parseValue_strStep (f : Nat) (X : List Char) :
    parseValue (f + 1) ('"' :: X)
      = (match parseStringBody [] X with
         | some (s, r') => some (.str s, r')
         | none => none) := rfl

theorem parseValue_arrStep (f : Nat) (X : List Char) :
    parseValue (f + 1) ('[' :: X)
      = (match skipJsonWs X with
         | ']' :: r' => some (.arr [], r')
         | cs' =>
           match parseItems f cs' with
           | some (es, r') => some (.arr es, r')
           | none => none) := rfl

theorem parseValue_objStep (f : Nat) (X : List Char) :
    parseValue (f + 1) ('{' :: X)
      = (match skipJsonWs X with
         | '}' :: r' => some (.obj [], r')
         | cs' =>
           match parseFields f cs' with
           | some (ms, r') => some (.obj ms, r')
           | none => none) := rfl

theorem parseItems_step (f : Nat) (cs : List Char) :
    parseItems (f + 1) cs
      = (match parseValue f cs with
         | none => none
         | some (v, r) =>
           match skipJsonWs r with
           | ',' :: r' =>
               (match parseItems f r' with
                | some (vs, r'') => some (v :: vs, r'')
                | none => none)
           | ']' :: r' => some ([v], r')
           | _ => none) := rfl

mutual

theorem rtValue : ∀ (j : Json) (fuel : Nat) (rest : List Char),
    intNums j → (printJson j).length < fuel → numStop rest = true →
    parseValue fuel (printJson j ++ rest) = some (j, rest)
  | .null, fuel, rest, _, hf, _ => by
    cases fuel with
    | zero => exact absurd hf (Nat.not_lt_zero _)
    | succ f => rfl
  | .bool true, fuel, rest, _, hf, _ => by
    cases fuel with
    | zero => exact absurd hf (Nat.not_lt_zero _)
    | succ f => rfl
  | .bool false, fuel, rest, _, hf, _ => by
    cases fuel with
    | zero => exact absurd hf (Nat.not_lt_zero _)
    | succ f => rfl
  | .num m e, fuel, rest, hint, hf, hr => by
    have he : e = 0 := hint
    subst he
    cases fuel with
    | zero => exact absurd hf (Nat.not_lt_zero _)
    | succ f =>
      have hm0 : printJson (.num m 0) = intChars m := by
        rw [show printJson (.num m 0)
          = intChars m ++ (if (0 : Int) = 0 then [] else 'e' :: intChars 0) from rfl]
        simp
      obtain ⟨c, t, hc, hg, hws, -, -, h3, h4, h5, h6, h7, h8⟩ := intChars_head m
      rw [hm0, hc, List.cons_append,
        parseValue_startNumber f c (t ++ rest) hg hws h3 h4 h5 h6 h7 h8,
        ← List.cons_append, ← hc, parseNumber_intChars m rest hr]
  | .str s, fuel, rest, _, hf, _ => by
    cases fuel with
    | zero => exact absurd hf (Nat.not_lt_zero _)
    | succ f =>
      have harg : printJson (.str s) ++ rest
          = '"' :: (s.data.flatMap escapeChar ++ ('"' :: rest)) := by
        rw [show printJson (.str s) = '"' :: (s.data.flatMap escapeChar ++ ['"']) from rfl]
        simp
      rw [harg, parseValue_strStep, parseStringBody_printed s rest]
  | .arr [], fuel, rest, _, hf, _ => by
    cases fuel with
    | zero => exact absurd hf (Nat.not_lt_zero _)
    | succ f => rfl
  | .arr (x :: xs), fuel, rest, hint, hf, _ => by
    cases fuel with
    | zero => exact absurd hf (Nat.not_lt_zero _)
    | succ f =>
      have hx : intNums x := hint.1
      have hxs : intNumsItems xs := hint.2
      have hlen : (printJson (.arr (x :: xs))).length
          = (printItems (x :: xs)).length + 2 := by
        rw [show printJson (.arr (x :: xs))
          = '[' :: (printItems (x :: xs) ++ [']']) from rfl]
        simp
      have harg : printJson (.arr (x :: xs)) ++ rest
          = '[' :: (printItems (x :: xs) ++ (']' :: rest)) := by
        rw [show printJson (.arr (x :: xs))
          = '[' :: (printItems (x :: xs) ++ [']']) from rfl]
        simp
      obtain ⟨c, t, hc, hws, hbr, -⟩ := printJson_head x
      have hitems : printItems (x :: xs) ++ (']' :: rest)
          = c :: (t ++ (printItemsRest xs ++ (']' :: rest))) := by
        rw [show printItems (x :: xs) = printJson x ++ printItemsRest xs from rfl, hc]
        simp
      rw [harg, parseValue_arrStep, hitems, skipJsonWs_cons _ hws]
      split
      · rename_i heq
        rw [List.cons.injEq] at heq
        exact absurd heq.1 hbr
      · rw [show c :: (t ++ (printItemsRest xs ++ (']' :: rest)))
          = printItems (x :: xs) ++ (']' :: rest) from hitems.symm]
        rw [rtItems x xs f rest ⟨hx, hxs⟩ (by omega)]
  | .obj [], fuel, rest, _, hf, _ => by
    cases fuel with
    | zero => exact absurd hf (Nat.not_lt_zero _)
    | succ f => rfl
  | .obj ((k, v) :: ms), fuel, rest, hint, hf, _ => by
    cases fuel with
    | zero => exact absurd hf (Nat.not_lt_zero _)
    | succ f =>
      have hv : intNums v := hint.1
      have hms : intNumsMembers ms := hint.2
      have hlen : (printJson (.obj ((k, v) :: ms))).length
          = (printMembers ((k, v) :: ms)).length + 2 := by
        rw [show printJson (.obj ((k, v) :: ms))
          = '{' :: (printMembers ((k, v) :: ms) ++ ['}']) from rfl]
        simp
      have harg : printJson (.obj ((k, v) :: ms)) ++ rest
          = '{' :: (printMembers ((k, v) :: ms) ++ ('}' :: rest)) := by
        rw [show printJson (.obj ((k, v) :: ms))
          = '{' :: (printMembers ((k, v) :: ms) ++ ['}']) from rfl]
        simp
      have hmem : printMembers ((k, v) :: ms) ++ ('}' :: rest)
          = '"' :: (k.data.flatMap escapeChar ++ ('"' :: (':' ::
              (printJson v ++ (printMembersRest ms ++ ('}' :: rest)))))) := by
        rw [show printMembers ((k, v) :: ms)
          = printStr k ++ ':' :: (printJson v ++ printMembersRest ms) from rfl,
          show printStr k = '"' :: (k.data.flatMap escapeChar ++ ['"']) from rfl]
        simp
      rw [harg, parseValue_objStep, hmem, skipJsonWs_cons _ (by decide)]
      show (match parseFields f ('"' :: (k.data.flatMap escapeChar ++ ('"' :: (':' ::
              (printJson v ++ (printMembersRest ms ++ ('}' :: rest))))))) with
            | some (ms', r') => some (Json.obj ms', r')
            | none => none)
          = some (Json.obj ((k, v) :: ms), rest)
      rw [show '"' :: (k.data.flatMap escapeChar ++ ('"' :: (':' ::
              (printJson v ++ (printMembersRest ms ++ ('}' :: rest))))))
          = printMembers ((k, v) :: ms) ++ ('}' :: rest) from hmem.symm]
      rw [rtMembers k v ms f rest ⟨hv, hms⟩ (by omega)]
termination_by j _ _ _ _ _ => sizeOf j

theorem rtItems : ∀ (x : Json) (xs : List Json) (fuel : Nat) (rest : List Char),
    intNums x ∧ intNumsItems xs → (printItems (x :: xs)).length + 1 < fuel →
    parseItems fuel (printItems (x :: xs) ++ (']' :: rest)) = some (x :: xs, rest)
  | x, [], fuel, rest, hint, hf => by
    cases fuel with
    | zero => exact absurd hf (Nat.not_lt_zero _)
    | succ f =>
      have hone : printItems (x :: ([] : List Json)) = printJson x := by
        rw [show printItems [x] = printJson x ++ printItemsRest [] from rfl]
        simp [show printItemsRest ([] : List Json) = [] from rfl]
      rw [hone] at hf ⊢
      rw [parseItems_step,
        rtValue x f (']' :: rest) hint.1 (by omega) (numStop_rbracket rest)]
      rfl
  | x, y :: ys, fuel, rest, hint, hf => by
    cases fuel with
    | zero => exact absurd hf (Nat.not_lt_zero _)
    | succ f =>
      have hsplit : printItems (x :: y :: ys)
          = printJson x ++ (',' :: printItems (y :: ys)) := rfl
      have harg : printItems (x :: y :: ys) ++ (']' :: rest)
          = printJson x ++ (',' :: (printItems (y :: ys) ++ (']' :: rest))) := by
        rw [hsplit]
        simp
      rw [hsplit] at hf
      simp only [List.length_append, List.length_cons] at hf
      rw [harg, parseItems_step,
        rtValue x f (',' :: (printItems (y :: ys) ++ (']' :: rest))) hint.1
          (by omega) (numStop_comma _)]
      show (match parseItems f (printItems (y :: ys) ++ (']' :: rest)) with
            | some (vs, r'') => some (x :: vs, r'')
            | none => none) = some (x :: y :: ys, rest)
      rw [rtItems y ys f rest hint.2 (by omega)]
termination_by x xs _ _ _ _ => sizeOf x + sizeOf xs

theorem rtMembers : ∀ (k : String) (v : Json) (ms : List (String × Json))
    (fuel : Nat) (rest : List Char),
    intNums v ∧ intNumsMembers ms →
    (printMembers ((k, v) :: ms)).length + 1 < fuel →
    parseFields fuel (printMembers ((k, v) :: ms) ++ ('}' :: rest))
      = some ((k, v) :: ms, rest)
  | k, v, [], fuel, rest, hint, hf => by
    cases fuel with
    | zero => exact absurd hf (Nat.not_lt_zero _)
    | succ f =>
      have hone : printMembers ((k, v) :: ([] : List (String × Json)))
          = printStr k ++ ':' :: printJson v := by
        rw [show printMembers [(k, v)]
          = printStr k ++ ':' :: (printJson v ++ printMembersRest []) from rfl]
        simp [show printMembersRest ([] : List (String × Json)) = [] from rfl]
      have hmem : printMembers ((k, v) :: ([] : List (String × Json))) ++ ('}' :: rest)
          = '"' :: (k.data.flatMap escapeChar ++ ('"' :: (':' ::
              (printJson v ++ ('}' :: rest))))) := by
        rw [hone, show printStr k = '"' :: (k.data.flatMap escapeChar ++ ['"']) from rfl]
        simp
      have hklen : (printStr k).length = (k.data.flatMap escapeChar).length + 2 := by
        rw [show printStr k = '"' :: (k.data.flatMap escapeChar ++ ['"']) from rfl]
        simp
      have hflen : (printJson v).length < f := by
        rw [hone] at hf
        simp only [List.length_append, List.length_cons] at hf
        omega
      rw [hmem]
      show (match parseStringBody [] (k.data.flatMap escapeChar ++ ('"' :: (':' ::
              (printJson v ++ ('}' :: rest))))) with
            | none => none
            | some (key, r1) =>
              match skipJsonWs r1 with
              | ':' :: r2 =>
                  (match parseValue f r2 with
                   | none => none
                   | some (v', r3) =>
                     match skipJsonWs r3 with
                     | ',' :: r4 =>
                         (match parseFields f r4 with
                          | some (ms', r5) => some ((key, v') :: ms', r5)
                          | none => none)
                     | '}' :: r4 => some ([(key, v')], r4)
                     | _ => none)
              | _ => none)
          = some ([(k, v)], rest)
      rw [parseStringBody_printed k (':' :: (printJson v ++ ('}' :: rest)))]
      show (match parseValue f (printJson v ++ ('}' :: rest)) with
            | none => none
            | some (v', r3) =>
              match skipJsonWs r3 with
              | ',' :: r4 =>
                  (match parseFields f r4 with
                   | some (ms', r5) => some ((k, v') :: ms', r5)
                   | none => none)
              | '}' :: r4 => some ([(k, v')], r4)
              | _ => none)
          = some ([(k, v)], rest)
      rw [rtValue v f ('}' :: rest) hint.1 hflen (numStop_rbrace rest)]
      rfl
  | k, v, (k2, v2) :: ms2, fuel, rest, hint, hf => by
    cases fuel with
    | zero => exact absurd hf (Nat.not_lt_zero _)
    | succ f =>
      have hsplit : printMembers ((k, v) :: (k2, v2) :: ms2)
          = printStr k ++ ':' :: (printJson v ++
              (',' :: printMembers ((k2, v2) :: ms2))) := rfl
      have hmem : printMembers ((k, v) :: (k2, v2) :: ms2) ++ ('}' :: rest)
          = '"' :: (k.data.flatMap escapeChar ++ ('"' :: (':' ::
              (printJson v ++ (',' ::
                (printMembers ((k2, v2) :: ms2) ++ ('}' :: rest))))))) := by
        rw [hsplit, show printStr k = '"' :: (k.data.flatMap escapeChar ++ ['"']) from rfl]
        simp
      have hklen : (printStr k).length = (k.data.flatMap escapeChar).length + 2 := by
        rw [show printStr k = '"' :: (k.data.flatMap escapeChar ++ ['"']) from rfl]
        simp
      rw [hsplit] at hf
      simp only [List.length_append, List.length_cons] at hf
      rw [hmem]
      show (match parseStringBody [] (k.data.flatMap escapeChar ++ ('"' :: (':' ::
              (printJson v ++ (',' ::
                (printMembers ((k2, v2) :: ms2) ++ ('}' :: rest))))))) with
            | none => none
            | some (key, r1) =>
              match skipJsonWs r1 with
              | ':' :: r2 =>
                  (match parseValue f r2 with
                   | none => none
                   | some (v', r3) =>
                     match skipJsonWs r3 with
                     | ',' :: r4 =>
                         (match parseFields f r4 with
                          | some (ms', r5) => some ((key, v') :: ms', r5)
                          | none => none)
                     | '}' :: r4 => some ([(key, v')], r4)
                     | _ => none)
              | _ => none)
          = some ((k, v) :: (k2, v2) :: ms2, rest)
      rw [parseStringBody_printed k (':' :: (printJson v ++ (',' ::
        (printMembers ((k2, v2) :: ms2) ++ ('}' :: rest)))))]
      show (match parseValue f (printJson v ++ (',' ::
              (printMembers ((k2, v2) :: ms2) ++ ('}' :: rest)))) with
            | none => none
            | some (v', r3) =>
              match skipJsonWs r3 with
              | ',' :: r4 =>
                  (match parseFields f r4 with
                   | some (ms', r5) => some ((k, v') :: ms', r5)
                   | none => none)
              | '}' :: r4 => some ([(k, v')], r4)
              | _ => none)
          = some ((k, v) :: (k2, v2) :: ms2, rest)
      rw [rtValue v f (',' :: (printMembers ((k2, v2) :: ms2) ++ ('}' :: rest)))
        hint.1 (by omega) (numStop_comma _)]
      show (match parseFields f (printMembers ((k2, v2) :: ms2) ++ ('}' :: rest)) with
            | some (ms', r5) => some ((k, v) :: ms', r5)
            | none => none)
          = some ((k, v) :: (k2, v2) :: ms2, rest)
      rw [rtMembers k2 v2 ms2 f rest hint.2 (by omega)]
termination_by _ v ms _ _ _ _ => sizeOf v + sizeOf ms

end

/-- The codec round-trip: the embedded `JSON.parse` inverts the embedded
`JSON.stringify` on every value in the integral-number fragment. -/
theorem jsonParse_stringify (j : Json) (h : intNums j) :
    jsonParse (stringify j) = some j := by
  unfold jsonParse stringify
  rw [show (String.mk (printJson j)).data = printJson j from rfl]
  have hrt := rtValue j ((printJson j).length + 1) [] h (by omega) rfl
  rw [List.append_nil] at hrt
  rw [hrt]
  rfl

/-! ## Reading back what the record store writes -/

theorem intNums_PRJson (pr : PR) : intNums (PR.toJson pr) := by
  unfold PR.toJson
  cases pr.notes with
  | none => exact ⟨trivial, trivial, trivial, trivial, trivial, rfl, trivial⟩
  | some n =>
    exact ⟨trivial, trivial, trivial, trivial, ⟨trivial, trivial, trivial⟩, rfl, trivial⟩

theorem intNums_PRArr (prs : List PR) : intNums (Json.arr (prs.map PR.toJson)) := by
  show intNumsItems (prs.map PR.toJson)
  induction prs with
  | nil => trivial
  | cons pr rest ih => exact ⟨intNums_PRJson pr, ih⟩

theorem decodePR_toJson (pr : PR) : decodePR (PR.toJson pr) = some pr := by
  obtain ⟨i, d, u, f, n, t⟩ := pr
  cases n with
  | none => rfl
  | some nn => rfl

theorem decodePRList_toJson (prs : List PR) :
    decodePRList (Json.arr (prs.map PR.toJson)) = some prs := by
  show (prs.map PR.toJson).mapM decodePR = some prs
  induction prs with
  | nil => rfl
  | cons pr rest ih =>
    rw [List.map_cons, List.mapM_cons, decodePR_toJson, ih]
    rfl

theorem getAllPRs_encoded (prs : List PR) (sd : Option String) :
    getAllPRs ⟨true, some (encodePRs prs), sd⟩ = prs := by
  unfold getAllPRs encodePRs
  simp [jsonParse_stringify _ (intNums_PRArr prs), decodePRList_toJson]

/-! ## Sorting facts for the record store -/

theorem byNewest_iff (a b : PR) : byNewest a b = true ↔ b.timestamp ≤ a.timestamp := by
  simp [byNewest]

theorem mergeSort_byNewest_sorted (l : List PR) :
    (l.mergeSort byNewest).Chain' (fun a b => b.timestamp ≤ a.timestamp) := by
  have hp : (l.mergeSort byNewest).Pairwise (fun a b => byNewest a b = true) := by
    refine List.sorted_mergeSort ?_ ?_ l
    · intro a b c hab hbc
      rw [byNewest_iff] at hab hbc ⊢
      omega
    · intro a b
      rcases Int.le_total b.timestamp a.timestamp with h | h
      · rw [Bool.or_eq_true]
        exact Or.inl ((byNewest_iff a b).mpr h)
      · rw [Bool.or_eq_true]
        exact Or.inr ((byNewest_iff b a).mpr h)
  exact List.Pairwise.chain' (hp.imp (fun hab => (byNewest_iff _ _).mp hab))

/-! ## Locating a record after an upsert -/

theorem replaceFirstById_self_mem {prs : List PR} {pr : PR}
    (h : prs.any (fun item => item.id == pr.id) = true) :
    pr ∈ replaceFirstById prs pr := by
  induction prs with
  | nil => simp at h
  | cons item rest ih =>
    unfold replaceFirstById
    by_cases hid : item.id == pr.id
    · rw [if_pos hid]
      exact List.mem_cons_self _ _
    · rw [if_neg hid]
      refine List.mem_cons_of_mem _ (ih ?_)
      simp only [List.any_cons, Bool.or_eq_true] at h
      rcases h with h | h
      · exact absurd h hid
      · exact h

theorem replaceFirstById_unique {prs : List PR} {pr y : PR}
    (hnd : (prs.map PR.id).Nodup) (hy : y ∈ replaceFirstById prs pr)
    (hid : y.id = pr.id) : y = pr := by
  induction prs with
  | nil => simp [replaceFirstById] at hy
  | cons item rest ih =>
    rw [List.map_cons, List.nodup_cons] at hnd
    unfold replaceFirstById at hy
    by_cases hitem : item.id == pr.id
    · rw [if_pos hitem] at hy
      rcases List.mem_cons.mp hy with rfl | hy'
      · rfl
      · exfalso
        apply hnd.1
        rw [beq_iff_eq] at hitem
        rw [show item.id = y.id from by rw [hitem, hid]]
        exact List.mem_map_of_mem PR.id hy'
    · rw [if_neg hitem] at hy
      rcases List.mem_cons.mp hy with rfl | hy'
      · exact absurd (by rw [hid]; exact beq_iff_eq.mpr rfl : (y.id == pr.id) = true) hitem
      · exact ih hnd.2 hy'

theorem upsertById_self_mem (prs : List PR) (pr : PR) : pr ∈ upsertById prs pr := by
  unfold upsertById
  split
  · rename_i h
    exact replaceFirstById_self_mem h
  · exact List.mem_append_right _ (List.mem_singleton.mpr rfl)

theorem upsertById_unique {prs : List PR} {pr y : PR}
    (hnd : (prs.map PR.id).Nodup) (hy : y ∈ upsertById prs pr)
    (hid : y.id = pr.id) : y = pr := by
  unfold upsertById at hy
  split at hy
  · exact replaceFirstById_unique hnd hy hid
  · rename_i hany
    rcases List.mem_append.mp hy with hy' | hy'
    · exfalso
      rw [Bool.not_eq_true, List.any_eq_false] at hany
      exact hany y hy' (by rw [hid]; exact beq_iff_eq.mpr rfl)
    · exact List.mem_singleton.mp hy'

theorem find?_of_perm_unique {l merged : List PR} {pr : PR} {id : String}
    (hperm : l.Perm merged) (hmem : pr ∈ merged) (hprid : pr.id = id)
    (huni : ∀ y ∈ merged, y.id = id → y = pr) :
    l.find? (fun item => item.id == id) = some pr := by
  have hmem' : pr ∈ l := hperm.mem_iff.mpr hmem
  have hsome : (l.find? (fun item => item.id == id)).isSome := by
    rw [List.find?_isSome]
    exact ⟨pr, hmem', by rw [hprid]; exact beq_iff_eq.mpr rfl⟩
  obtain ⟨y, hy⟩ := Option.isSome_iff_exists.mp hsome
  have hy1 : y.id = id := by simpa using List.find?_some hy
  have hy2 : y ∈ l := List.mem_of_find?_eq_some hy
  rw [hy, huni y (hperm.mem_iff.mp hy2) hy1]

/-! ## The storage claims -/

/-- C8: the Local Record Store keeps the persisted item list sorted by
descending last-update timestamp — after every `savePR` or `savePRs`
operation (on an available store), every pair of adjacent stored items has
the earlier one's timestamp at least the later one's. -/
theorem claim_C8_store_sorted_after_save (st : Storage) (pr : PR) (newPRs : List PR)
    (hav : st.available = true) :
    (getAllPRs (savePR st pr)).Chain' (fun a b => b.timestamp ≤ a.timestamp) ∧
    (getAllPRs (savePRs st newPRs)).Chain' (fun a b => b.timestamp ≤ a.timestamp) := by
  obtain ⟨av, pd, sd⟩ := st
  have hav' : av = true := hav
  subst hav'
  constructor
  · rw [show savePR ⟨true, pd, sd⟩ pr
      = ⟨true, some (encodePRs ((upsertById (getAllPRs ⟨true, pd, sd⟩) pr).mergeSort
          byNewest)), sd⟩ from rfl]
    rw [getAllPRs_encoded]
    exact mergeSort_byNewest_sorted _
  · rw [show savePRs ⟨true, pd, sd⟩ newPRs
      = ⟨true, some (encodePRs (((getAllPRs ⟨true, pd, sd⟩ ++ newPRs).foldl upsertById
          []).mergeSort byNewest)), sd⟩ from rfl]
    rw [getAllPRs_encoded]
    exact mergeSort_byNewest_sorted _

/-- Witness for C8 at a concrete store and records. -/
theorem claim_C8_store_sorted_after_save_witness :
    (Storage.mk true none none).available = true ∧
    ((getAllPRs (savePR ⟨true, none, none⟩ ⟨"1", "d", "u", "f", none, 5⟩)).Chain'
        (fun a b => b.timestamp ≤ a.timestamp) ∧
     (getAllPRs (savePRs ⟨true, none, none⟩
        [⟨"1", "d", "u", "f", none, 5⟩, ⟨"2", "e", "v", "g", none, 9⟩])).Chain'
        (fun a b => b.timestamp ≤ a.timestamp)) :=
  ⟨rfl, claim_C8_store_sorted_after_save ⟨true, none, none⟩
    ⟨"1", "d", "u", "f", none, 5⟩
    [⟨"1", "d", "u", "f", none, 5⟩, ⟨"2", "e", "v", "g", none, 9⟩] rfl⟩

/-- C9: round-trip of finalized notes — for every item already present in
the Local Record Store (keyed by unique ids) and every pair of strings
`(d, m)`, `saveNotesForPR id d m` followed by `getPRById id` returns the
record with notes exactly `⟨d, m⟩` (and the refreshed timestamp),
byte-identical to what was written. -/
theorem claim_C9_notes_roundtrip (st : Storage) (prs : List PR) (id d m : String)
    (now : Int) (hav : st.available = true) (hdata : st.prData = some (encodePRs prs))
    (hnodup : (prs.map PR.id).Nodup) (hmem : ∃ pr ∈ prs, pr.id = id) :
    ∃ pr0, getPRById st id = some pr0 ∧
      getPRById (saveNotesForPR st id d m now) id
        = some { pr0 with notes := some ⟨d, m⟩, timestamp := now } := by
  obtain ⟨av, pd, sd⟩ := st
  have hav' : av = true := hav
  have hpd : pd = some (encodePRs prs) := hdata
  subst hav' hpd
  have hall : getAllPRs ⟨true, some (encodePRs prs), sd⟩ = prs := getAllPRs_encoded prs sd
  have hfind_some : (prs.find? (fun item => item.id == id)).isSome := by
    rw [List.find?_isSome]
    obtain ⟨pr, hpr, hid⟩ := hmem
    exact ⟨pr, hpr, by rw [hid]; exact beq_iff_eq.mpr rfl⟩
  obtain ⟨pr0, hpr0⟩ := Option.isSome_iff_exists.mp hfind_some
  have hpr0mem : pr0 ∈ prs := List.mem_of_find?_eq_some hpr0
  have hpr0id : pr0.id = id := by simpa using List.find?_some hpr0
  have hget : getPRById ⟨true, some (encodePRs prs), sd⟩ id = some pr0 := by
    unfold getPRById
    rw [hall]
    exact hpr0
  refine ⟨pr0, hget, ?_⟩
  have hsave : saveNotesForPR ⟨true, some (encodePRs prs), sd⟩ id d m now
      = savePR ⟨true, some (encodePRs prs), sd⟩
          { pr0 with notes := some ⟨d, m⟩, timestamp := now } := by
    unfold saveNotesForPR
    rw [hget]
  have hsavePR : savePR ⟨true, some (encodePRs prs), sd⟩
        { pr0 with notes := some ⟨d, m⟩, timestamp := now }
      = ⟨true, some (encodePRs ((upsertById prs
          { pr0 with notes := some ⟨d, m⟩, timestamp := now }).mergeSort byNewest)),
          sd⟩ := by
    rw [show savePR ⟨true, some (encodePRs prs), sd⟩
          { pr0 with notes := some ⟨d, m⟩, timestamp := now }
        = ⟨true, some (encodePRs ((upsertById (getAllPRs ⟨true, some (encodePRs prs), sd⟩)
            { pr0 with notes := some ⟨d, m⟩, timestamp := now }).mergeSort byNewest)),
            sd⟩ from rfl, hall]
  rw [hsave, hsavePR]
  unfold getPRById
  rw [getAllPRs_encoded]
  refine find?_of_perm_unique (List.mergeSort_perm _ byNewest)
    (upsertById_self_mem prs _) hpr0id ?_
  intro y hy hid'
  refine upsertById_unique hnodup hy ?_
  show y.id = pr0.id
  rw [hid', hpr0id]

/-- Witness for C9 at a one-record store. -/
theorem claim_C9_notes_roundtrip_witness :
    ((([⟨"42", "de", "ur", "di", none, 5⟩] : List PR).map PR.id).Nodup ∧
      ∃ pr ∈ ([⟨"42", "de", "ur", "di", none, 5⟩] : List PR), pr.id = "42") ∧
    ∃ pr0, getPRById ⟨true, some (encodePRs [⟨"42", "de", "ur", "di", none, 5⟩]), none⟩
        "42" = some pr0 ∧
      getPRById (saveNotesForPR
          ⟨true, some (encodePRs [⟨"42", "de", "ur", "di", none, 5⟩]), none⟩
          "42" "D" "M" 99) "42"
        = some { pr0 with notes := some ⟨"D", "M"⟩, timestamp := 99 } :=
  ⟨⟨by simp, ⟨"42", "de", "ur", "di", none, 5⟩, List.mem_singleton.mpr rfl, rfl⟩,
    claim_C9_notes_roundtrip
      ⟨true, some (encodePRs [⟨"42", "de", "ur", "di", none, 5⟩]), none⟩
      [⟨"42", "de", "ur", "di", none, 5⟩] "42" "D" "M" 99 rfl rfl (by simp)
      ⟨⟨"42", "de", "ur", "di", none, 5⟩, List.mem_singleton.mpr rfl, rfl⟩⟩

/-- C10: every read of the Local Record Store is total and returns the
documented default instead of propagating an exception — when the backing
storage is unavailable, the key is absent, or the stored data does not
parse, `getAllPRs` returns `[]` and `getPRById` / `getStreamingSession`
return `null`.  (Totality itself is by construction: the embedded reads are
total functions.) -/
theorem claim_C10_reads_default (st : Storage) (id : String)
    (hpr : st.available = false ∨ st.prData = none ∨
      (∃ raw, st.prData = some raw ∧ jsonParse raw = none))
    (hss : st.available = false ∨ st.streamingData = none ∨
      (∃ raw, st.streamingData = some raw ∧ jsonParse raw = none)) :
    getAllPRs st = [] ∧ getPRById st id = none ∧ getStreamingSession st id = none := by
  obtain ⟨av, pd, sd⟩ := st
  have hall : getAllPRs ⟨av, pd, sd⟩ = [] := by
    rcases hpr with h | h | ⟨raw, h1, h2⟩
    · have : av = false := h
      subst this
      rfl
    · have : pd = none := h
      subst this
      cases av <;> rfl
    · have : pd = some raw := h1
      subst this
      cases av with
      | false => rfl
      | true =>
        show (match jsonParse raw with
              | none => []
              | some j => (decodePRList j).getD []) = []
        rw [h2]
  refine ⟨hall, ?_, ?_⟩
  · unfold getPRById
    rw [hall]
    rfl
  · rcases hss with h | h | ⟨raw, h1, h2⟩
    · have : av = false := h
      subst this
      rfl
    · have : sd = none := h
      subst this
      cases av <;> rfl
    · have : sd = some raw := h1
      subst this
      cases av with
      | false => rfl
      | true =>
        show (match jsonParse raw with
              | none => none
              | some j => ((decodeSessionList j).getD []).find? (fun s => s.id == id)) = none
        rw [h2]

/-! ## Scanner lemmas

The relation between the closed-value and open-value key regexes, proved
over `matchToks`: success consumes a suffix (`matchToks_sfx`), success
survives appending more text (`matchToks_app`), a failure that turns into a
success after appending was cut off by the end of input
(`matchToks_cut`), and a successful key-pattern match consumes exactly
three quote characters (`matchToks_countQ`). -/

theorem dropWhile_append_pos {p : Char → Bool} {u : List Char} (t : List Char)
    (h : u.dropWhile p ≠ []) :
    (u ++ t).dropWhile p = u.dropWhile p ++ t := by
  induction u with
  | nil => exact absurd rfl h
  | cons c u' ih =>
    by_cases hc : p c
    · simp only [List.cons_append, List.dropWhile_cons_of_pos hc] at h ⊢
      exact ih h
    · simp only [List.cons_append, List.dropWhile_cons_of_neg hc]

theorem dropWhile_append_nil {p : Char → Bool} {u : List Char} (t : List Char)
    (h : u.dropWhile p = []) :
    (u ++ t).dropWhile p = t.dropWhile p := by
  induction u with
  | nil => rfl
  | cons c u' ih =>
    by_cases hc : p c
    · simp only [List.cons_append, List.dropWhile_cons_of_pos hc] at h ⊢
      exact ih h
    · rw [List.dropWhile_cons_of_neg hc] at h
      simp at h

theorem matchToks_sfx : ∀ (ps : List Tok) (v r : List Char),
    matchToks ps v = some r → r <:+ v
  | [], v, r, h => by
    rw [matchToks] at h
    rw [← Option.some.injEq _ _ |>.mp h]
  | .lit c :: ps, [], r, h => by
    rw [matchToks] at h
    cases h
  | .lit c :: ps, x :: v', r, h => by
    rw [matchToks] at h
    split at h
    · exact (matchToks_sfx ps v' r h).trans (List.suffix_cons x v')
    · cases h
  | .litCI c :: ps, [], r, h => by
    rw [matchToks] at h
    cases h
  | .litCI c :: ps, x :: v', r, h => by
    rw [matchToks] at h
    split at h
    · exact (matchToks_sfx ps v' r h).trans (List.suffix_cons x v')
    · cases h
  | .wsStar :: ps, v, r, h => by
    rw [matchToks] at h
    exact (matchToks_sfx ps _ r h).trans (List.dropWhile_suffix regexWs)

theorem matchToks_app : ∀ (ps : List Tok) (u t r : List Char),
    matchToks ps u = some r → r ≠ [] → matchToks ps (u ++ t) = some (r ++ t)
  | [], u, t, r, h, _ => by
    rw [matchToks] at h
    rw [matchToks, Option.some.injEq _ _ |>.mp h]
  | .lit c :: ps, [], t, r, h, _ => by
    rw [matchToks] at h
    cases h
  | .lit c :: ps, x :: u', t, r, h, hr => by
    rw [matchToks] at h
    rw [List.cons_append, matchToks]
    split at h
    · rename_i hx
      rw [if_pos hx]
      exact matchToks_app ps u' t r h hr
    · cases h
  | .litCI c :: ps, [], t, r, h, _ => by
    rw [matchToks] at h
    cases h
  | .litCI c :: ps, x :: u', t, r, h, hr => by
    rw [matchToks] at h
    rw [List.cons_append, matchToks]
    split at h
    · rename_i hx
      rw [if_pos hx]
      exact matchToks_app ps u' t r h hr
    · cases h
  | .wsStar :: ps, u, t, r, h, hr => by
    rw [matchToks] at h
    rw [matchToks]
    have hd : u.dropWhile regexWs ≠ [] := by
      intro hnil
      rw [hnil] at h
      have := matchToks_sfx ps [] r h
      rw [List.suffix_nil.mp this] at hr
      exact hr rfl
    rw [dropWhile_append_pos t hd]
    exact matchToks_app ps _ t r h hr

theorem matchToks_cut : ∀ (ps : List Tok) (u t r : List Char),
    matchToks ps u = none → matchToks ps (u ++ t) = some r → r <:+ t
  | [], u, t, r, h, _ => by
    rw [matchToks] at h
    cases h
  | .lit c :: ps, [], t, r, _, h2 => by
    rw [List.nil_append] at h2
    exact matchToks_sfx _ t r h2
  | .lit c :: ps, x :: u', t, r, h, h2 => by
    rw [matchToks] at h
    rw [List.cons_append, matchToks] at h2
    split at h
    · rename_i hx
      rw [if_pos hx] at h2
      exact matchToks_cut ps u' t r h h2
    · rename_i hx
      rw [if_neg hx] at h2
      cases h2
  | .litCI c :: ps, [], t, r, _, h2 => by
    rw [List.nil_append] at h2
    exact matchToks_sfx _ t r h2
  | .litCI c :: ps, x :: u', t, r, h, h2 => by
    rw [matchToks] at h
    rw [List.cons_append, matchToks] at h2
    split at h
    · rename_i hx
      rw [if_pos hx] at h2
      exact matchToks_cut ps u' t r h h2
    · rename_i hx
      rw [if_neg hx] at h2
      cases h2
  | .wsStar :: ps, u, t, r, h, h2 => by
    rw [matchToks] at h
    rw [matchToks] at h2
    by_cases hd : u.dropWhile regexWs = []
    · rw [dropWhile_append_nil t hd] at h2
      exact (matchToks_sfx ps _ r h2).trans (List.dropWhile_suffix regexWs)
    · rw [dropWhile_append_pos t hd] at h2
      exact matchToks_cut ps _ t r h h2

theorem count_dropWhile_ws (v : List Char) :
    (v.dropWhile regexWs).count '"' = v.count '"' := by
  conv_rhs => rw [← List.takeWhile_append_dropWhile regexWs v]
  rw [List.count_append]
  have hz : (v.takeWhile regexWs).count '"' = 0 := by
    rw [List.count_eq_zero]
    intro hmem
    have := List.mem_takeWhile_imp hmem
    exact absurd this (by decide)
  omega

theorem matchToks_countQ : ∀ (ps : List Tok) (v r : List Char),
    (∀ tok ∈ ps, tokOK tok = true) → matchToks ps v = some r →
    v.count '"' = patQ ps + r.count '"'
  | [], v, r, _, h => by
    rw [matchToks] at h
    rw [Option.some.injEq _ _ |>.mp h]
    simp [patQ]
  | .lit c :: ps, [], r, _, h => by
    rw [matchToks] at h
    cases h
  | .lit c :: ps, x :: v', r, hok, h => by
    rw [matchToks] at h
    split at h
    · rename_i hx
      have ih := matchToks_countQ ps v' r (fun tok ht => hok tok (by simp [ht])) h
      rw [List.count_cons, ih,
        show patQ (.lit c :: ps) = (if c = '"' then 1 else 0) + patQ ps from by
          simp [patQ, tokQ]]
      by_cases hc : c = '"'
      · rw [if_pos hc, if_pos (beq_iff_eq.mpr (hx.trans hc))]
        omega
      · rw [if_neg hc, if_neg (fun hb => hc (hx.symm.trans (beq_iff_eq.mp hb)))]
        omega
    · cases h
  | .litCI c :: ps, [], r, _, h => by
    rw [matchToks] at h
    cases h
  | .litCI c :: ps, x :: v', r, hok, h => by
    rw [matchToks] at h
    split at h
    · rename_i hx
      have hok0 : tokOK (Tok.litCI c) = true := hok _ (by simp)
      have hcq : asciiLower c ≠ '"' := by
        simpa [tokOK] using hok0
      have hxq : x ≠ '"' := by
        intro hx'
        subst hx'
        rw [show asciiLower '"' = '"' from rfl] at hx
        exact hcq hx.symm
      have ih := matchToks_countQ ps v' r (fun tok ht => hok tok (by simp [ht])) h
      rw [List.count_cons, ih, if_neg (by simpa using hxq)]
      rw [show patQ (.litCI c :: ps) = patQ ps from by simp [patQ, tokQ]]
      omega
    · cases h
  | .wsStar :: ps, v, r, hok, h => by
    rw [matchToks] at h
    have ih := matchToks_countQ ps _ r (fun tok ht => hok tok (by simp [ht])) h
    rw [← count_dropWhile_ws v, ih]
    rw [show patQ (.wsStar :: ps) = patQ ps from by simp [patQ, tokQ]]

theorem keyPat_tokOK (ci : Bool) (field : List Char)
    (hfa : ∀ c ∈ field, asciiLower c ≠ '"') :
    ∀ tok ∈ keyPat ci field, tokOK tok = true := by
  intro tok htok
  unfold keyPat at htok
  rcases List.mem_cons.mp htok with rfl | htok'
  · rfl
  rcases List.mem_append.mp htok' with hmap | hfix
  · obtain ⟨c, hc, rfl⟩ := List.mem_map.mp hmap
    cases ci with
    | true =>
      rw [if_pos rfl]
      simpa [tokOK] using hfa c hc
    | false => rfl
  · simp only [List.mem_cons, List.not_mem_nil, or_false] at hfix
    rcases hfix with rfl | rfl | rfl | rfl | rfl <;> rfl

theorem patQ_cons (tok : Tok) (ps : List Tok) : patQ (tok :: ps) = tokQ tok + patQ ps := by
  simp [patQ]

theorem patQ_append (a b : List Tok) : patQ (a ++ b) = patQ a + patQ b := by
  simp [patQ]

theorem fieldToks_patQ (ci : Bool) (field : List Char)
    (hfa : ∀ c ∈ field, asciiLower c ≠ '"') :
    patQ (field.map (fun c => if ci then Tok.litCI c else Tok.lit c)) = 0 := by
  induction field with
  | nil => rfl
  | cons c f ih =>
    rw [List.map_cons, patQ_cons, ih (fun x hx => hfa x (List.mem_cons_of_mem c hx))]
    have hcq : c ≠ '"' := fun hq => (hfa c (List.mem_cons_self c f)) (by rw [hq]; rfl)
    cases ci with
    | true => rfl
    | false =>
      rw [show tokQ (if (false : Bool) then Tok.litCI c else Tok.lit c)
        = (if c = '"' then 1 else 0) from rfl, if_neg hcq]

theorem keyPat_patQ (ci : Bool) (field : List Char)
    (hfa : ∀ c ∈ field, asciiLower c ≠ '"') :
    patQ (keyPat ci field) = 3 := by
  unfold keyPat
  rw [patQ_cons, patQ_append, fieldToks_patQ ci field hfa]
  rfl

theorem matchToks_keyPat_head {ci : Bool} {field : List Char} {u r : List Char}
    (h : matchToks (keyPat ci field) u = some r) : ∃ u', u = '"' :: u' := by
  unfold keyPat at h
  cases u with
  | nil =>
    rw [matchToks] at h
    cases h
  | cons x u' =>
    rw [matchToks] at h
    split at h
    · rename_i hx
      exact ⟨u', by rw [hx]⟩
    · cases h

theorem openMatchAt_nil (ci : Bool) (field : List Char) :
    openMatchAt ci field [] = none := rfl

theorem openMatchAt_some_toks {ci : Bool} {field u run : List Char}
    (ho : openMatchAt ci field u = some run) :
    ∃ m, matchToks (keyPat ci field) u = some m ∧ run = m.takeWhile (· != '"') := by
  unfold openMatchAt at ho
  cases hm : matchToks (keyPat ci field) u with
  | none =>
    rw [hm] at ho
    cases ho
  | some m =>
    rw [hm] at ho
    exact ⟨m, rfl, (Option.some.injEq _ _ |>.mp ho).symm⟩

theorem openMatchAt_none_toks {ci : Bool} {field u : List Char}
    (ho : openMatchAt ci field u = none) :
    matchToks (keyPat ci field) u = none := by
  unfold openMatchAt at ho
  cases hm : matchToks (keyPat ci field) u with
  | none => rfl
  | some m =>
    rw [hm] at ho
    cases ho

theorem openMatchAt_eq_of_toks {ci : Bool} {field u r : List Char}
    (hm : matchToks (keyPat ci field) u = some r) :
    openMatchAt ci field u = some (r.takeWhile (· != '"')) := by
  unfold openMatchAt
  rw [hm]
  rfl

theorem closedMatchAt_eq_of_toks {ci : Bool} {field u r : List Char}
    (hm : matchToks (keyPat ci field) u = some r) :
    closedMatchAt ci field u
      = (if (r.dropWhile (· != '"')).isEmpty then none
         else some (r.takeWhile (· != '"'))) := by
  unfold closedMatchAt
  rw [hm]

theorem closedMatchAt_none_of_toks {ci : Bool} {field u : List Char}
    (hm : matchToks (keyPat ci field) u = none) :
    closedMatchAt ci field u = none := by
  unfold closedMatchAt
  rw [hm]

theorem closed_imp_open {ci : Bool} {field u cap : List Char}
    (h : closedMatchAt ci field u = some cap) :
    openMatchAt ci field u = some cap := by
  cases hm : matchToks (keyPat ci field) u with
  | none =>
    rw [closedMatchAt_none_of_toks hm] at h
    cases h
  | some r =>
    rw [closedMatchAt_eq_of_toks hm] at h
    rw [openMatchAt_eq_of_toks hm]
    split at h
    · cases h
    · exact h

theorem dropWhile_head_false {p : Char → Bool} {l : List Char} {d : Char} {ds : List Char}
    (h : l.dropWhile p = d :: ds) : p d = false := by
  induction l with
  | nil => cases h
  | cons c t ih =>
    by_cases hc : p c
    · rw [List.dropWhile_cons_of_pos hc] at h
      exact ih h
    · rw [List.dropWhile_cons_of_neg hc] at h
      rw [List.cons.injEq] at h
      rw [← h.1]
      simpa using hc

theorem closedMatchAt_none_count {ci : Bool} {field : List Char}
    (hfa : ∀ c ∈ field, asciiLower c ≠ '"') {u run : List Char}
    (ho : openMatchAt ci field u = some run)
    (hc : closedMatchAt ci field u = none) :
    u.count '"' = 3 := by
  obtain ⟨m, hm, -⟩ := openMatchAt_some_toks ho
  rw [closedMatchAt_eq_of_toks hm] at hc
  split at hc
  · rename_i hdw
    rw [List.isEmpty_iff] at hdw
    have hmr : m.count '"' = 0 := by
      rw [List.count_eq_zero]
      intro hmem
      have hm' : m.takeWhile (· != '"') = m := by
        conv_rhs => rw [← List.takeWhile_append_dropWhile (· != '"') m, hdw,
          List.append_nil]
      rw [← hm'] at hmem
      have := List.mem_takeWhile_imp hmem
      simp at this
    rw [matchToks_countQ _ _ _ (keyPat_tokOK ci field hfa) hm,
      keyPat_patQ ci field hfa, hmr]
  · cases hc

theorem closedMatchAt_some_count {ci : Bool} {field : List Char}
    (hfa : ∀ c ∈ field, asciiLower c ≠ '"') {u cap : List Char}
    (h : closedMatchAt ci field u = some cap) :
    4 ≤ u.count '"' := by
  cases hm : matchToks (keyPat ci field) u with
  | none =>
    rw [closedMatchAt_none_of_toks hm] at h
    cases h
  | some r =>
    rw [closedMatchAt_eq_of_toks hm] at h
    split at h
    · cases h
    · rename_i hdw
      have hdw' : r.dropWhile (· != '"') ≠ [] := by
        intro hnil
        rw [hnil] at hdw
        exact hdw rfl
      obtain ⟨d, ds, hds⟩ : ∃ d ds, r.dropWhile (· != '"') = d :: ds := by
        cases hcase : r.dropWhile (· != '"') with
        | nil => exact absurd hcase hdw'
        | cons d ds => exact ⟨d, ds, rfl⟩
      have hd : d = '"' := by
        have := dropWhile_head_false hds
        simpa using this
      have hr1 : 1 ≤ r.count '"' := by
        have hsub : (r.dropWhile (· != '"')).count '"' ≤ r.count '"' :=
          ((List.dropWhile_suffix (· != '"')).sublist).count_le '"'
        rw [hds, List.count_cons, hd] at hsub
        simp at hsub
        omega
      rw [matchToks_countQ _ _ _ (keyPat_tokOK ci field hfa) hm,
        keyPat_patQ ci field hfa]
      omega

theorem scanFirst_cons (f : List Char → Option (List Char)) (c : Char) (cs : List Char) :
    scanFirst f (c :: cs)
      = (match f (c :: cs) with
         | some r => some r
         | none => scanFirst f cs) := rfl

theorem scanFirst_sfx {f : List Char → Option (List Char)} :
    ∀ {cs r : List Char}, scanFirst f cs = some r → ∃ u, u <:+ cs ∧ f u = some r := by
  intro cs
  induction cs with
  | nil =>
    intro r h
    exact ⟨[], List.nil_suffix, h⟩
  | cons c cs ih =>
    intro r h
    rw [scanFirst_cons] at h
    cases hf : f (c :: cs) with
    | some r' =>
      rw [hf] at h
      exact ⟨c :: cs, List.suffix_rfl, hf.trans h⟩
    | none =>
      rw [hf] at h
      obtain ⟨u, hu, hfu⟩ := ih h
      exact ⟨u, hu.trans (List.suffix_cons c cs), hfu⟩

/-- When the closed-value regex has a leftmost match, the open-value regex
has the same leftmost match with the same capture: at any position the
closed pattern succeeds, the open one succeeds with an equal capture, and
at an earlier position where only the open one would succeed, its run
reaches the end of the text unclosed — which leaves too few quote
characters for the closed pattern to succeed anywhere later. -/
theorem scanClosed_imp_scanOpen {ci : Bool} {field : List Char}
    (hfa : ∀ c ∈ field, asciiLower c ≠ '"') :
    ∀ {cs cap : List Char}, scanFirst (closedMatchAt ci field) cs = some cap →
    scanFirst (openMatchAt ci field) cs = some cap := by
  intro cs
  induction cs with
  | nil =>
    intro cap h
    exact closed_imp_open h
  | cons c cs ih =>
    intro cap h
    cases hc : closedMatchAt ci field (c :: cs) with
    | some r =>
      rw [scanFirst_cons, hc] at h
      rw [scanFirst_cons, closed_imp_open hc]
      exact h
    | none =>
      rw [scanFirst_cons, hc] at h
      have htail := ih h
      cases ho : openMatchAt ci field (c :: cs) with
      | none =>
        rw [scanFirst_cons, ho]
        exact htail
      | some run =>
        exfalso
        have hcount3 : (c :: cs).count '"' = 3 := closedMatchAt_none_count hfa ho hc
        obtain ⟨m, hm, -⟩ := openMatchAt_some_toks ho
        obtain ⟨u', hu'⟩ := matchToks_keyPat_head hm
        have hcq : c = '"' := (List.cons.injEq _ _ _ _ |>.mp hu').1
        have hcs2 : cs.count '"' = 2 := by
          rw [List.count_cons, hcq] at hcount3
          simpa using hcount3
        obtain ⟨u, hu, hfu⟩ := scanFirst_sfx h
        have h4 := closedMatchAt_some_count hfa hfu
        have hle := (hu.sublist).count_le '"'
        omega

/-- The open-value leftmost capture survives appending more text: the same
position still matches with an extended (still nonempty) run, and no
earlier position can start matching, since a pattern cut off by the end of
the buffer would need more quote characters than precede the match. -/
theorem scanOpen_append {ci : Bool} {field : List Char}
    (hfa : ∀ c ∈ field, asciiLower c ≠ '"') :
    ∀ {cs : List Char} (t : List Char) {r₀ : List Char},
    scanFirst (openMatchAt ci field) cs = some r₀ → r₀ ≠ [] →
    ∃ r', scanFirst (openMatchAt ci field) (cs ++ t) = some r' ∧ r' ≠ [] := by
  intro cs
  induction cs with
  | nil =>
    intro t r₀ h hne
    rw [show scanFirst (openMatchAt ci field) [] = openMatchAt ci field [] from rfl,
      openMatchAt_nil] at h
    cases h
  | cons c cs ih =>
    intro t r₀ h hne
    cases ho : openMatchAt ci field (c :: cs) with
    | some r =>
      rw [scanFirst_cons, ho] at h
      have hr : r = r₀ := Option.some.injEq _ _ |>.mp h
      subst hr
      obtain ⟨m, hm, htake⟩ := openMatchAt_some_toks ho
      have hmne : m ≠ [] := by
        intro h0
        rw [h0] at htake
        exact hne htake
      have hap : matchToks (keyPat ci field) (c :: (cs ++ t)) = some (m ++ t) := by
        have := matchToks_app _ _ t _ hm hmne
        rw [show (c :: cs) ++ t = c :: (cs ++ t) from rfl] at this
        exact this
      obtain ⟨d, m', hdm⟩ : ∃ d m', m = d :: m' := by
        cases m with
        | nil => exact absurd rfl hmne
        | cons d m' => exact ⟨d, m', rfl⟩
      have hd : (d != '"') = true := by
        by_contra hdq
        rw [hdm, List.takeWhile_cons] at htake
        rw [Bool.not_eq_true] at hdq
        rw [hdq] at htake
        exact hne htake
      refine ⟨(m ++ t).takeWhile (· != '"'), ?_, ?_⟩
      · rw [show (c :: cs) ++ t = c :: (cs ++ t) from rfl, scanFirst_cons,
          openMatchAt_eq_of_toks hap]
      · rw [hdm, List.cons_append, List.takeWhile_cons, hd]
        simp
    | none =>
      rw [scanFirst_cons, ho] at h
      obtain ⟨r', hr', hne'⟩ := ih t h hne
      cases ho2 : openMatchAt ci field (c :: (cs ++ t)) with
      | none =>
        refine ⟨r', ?_, hne'⟩
        rw [show (c :: cs) ++ t = c :: (cs ++ t) from rfl, scanFirst_cons, ho2]
        exact hr'
      | some run2 =>
        exfalso
        have hmt_none : matchToks (keyPat ci field) (c :: cs) = none :=
          openMatchAt_none_toks ho
        obtain ⟨m2, hm2, -⟩ := openMatchAt_some_toks ho2
        have hcut : m2 <:+ t := by
          refine matchToks_cut _ (c :: cs) t _ hmt_none ?_
          rw [show (c :: cs) ++ t = c :: (cs ++ t) from rfl]
          exact hm2
        have hq : (c :: (cs ++ t)).count '"' = 3 + m2.count '"' := by
          rw [matchToks_countQ _ _ _ (keyPat_tokOK ci field hfa) hm2,
            keyPat_patQ ci field hfa]
        obtain ⟨u', hu'⟩ := matchToks_keyPat_head hm2
        have hcq : c = '"' := (List.cons.injEq _ _ _ _ |>.mp hu').1
        obtain ⟨u, hu, hfu⟩ := scanFirst_sfx h
        obtain ⟨mu, hmu, -⟩ := openMatchAt_some_toks hfu
        have hqu : u.count '"' = 3 + mu.count '"' := by
          rw [matchToks_countQ _ _ _ (keyPat_tokOK ci field hfa) hmu,
            keyPat_patQ ci field hfa]
        have hle : u.count '"' ≤ cs.count '"' := (hu.sublist).count_le '"'
        have hm2le : m2.count '"' ≤ t.count '"' := (hcut.sublist).count_le '"'
        have hcc : (c :: (cs ++ t)).count '"' = cs.count '"' + t.count '"' + 1 := by
          rw [List.count_cons, List.count_append, hcq]
          simp
        omega

/-! ## String-level extractor lemmas -/

theorem mk_eq_empty_iff (l : List Char) : String.mk l = "" ↔ l = [] := by
  constructor
  · intro h
    have : (String.mk l).data = ("" : String).data := by rw [h]
    simpa using this
  · intro h
    subst h
    rfl

theorem specFieldValue_closed {text fieldName : String} {c : String}
    (hc : closedCapture true text fieldName = some c) :
    specFieldValue text fieldName = c := by
  unfold specFieldValue
  rw [hc]

theorem specFieldValue_open {text fieldName : String}
    (hc : closedCapture true text fieldName = none) :
    specFieldValue text fieldName = (openCapture true text fieldName).getD "" := by
  unfold specFieldValue
  rw [hc]

theorem extractField_getD_spec (text fieldName : String)
    (hfa : ∀ c ∈ fieldName.data, asciiLower c ≠ '"') :
    (extractField text fieldName).getD "" = specFieldValue text fieldName := by
  unfold extractField
  cases hc : closedCapture true text fieldName with
  | some c =>
    rw [specFieldValue_closed hc]
    show (if c ≠ "" then some c else extractFieldOpen text fieldName).getD "" = c
    by_cases hce : c ≠ ""
    · rw [if_pos hce]
      rfl
    · rw [if_neg hce]
      rw [Classical.not_not] at hce
      subst hce
      -- the closed scan matched with an empty capture: the open scan agrees,
      -- so the open branch also yields the empty capture and is suppressed
      unfold closedCapture at hc
      cases hs : scanFirst (closedMatchAt true fieldName.data) text.data with
      | none =>
        rw [hs] at hc
        cases hc
      | some l =>
        rw [hs] at hc
        have hmk : String.mk l = "" := by simpa using hc
        have hop := scanClosed_imp_scanOpen hfa hs
        unfold extractFieldOpen openCapture
        rw [hop]
        show (if String.mk l ≠ "" then some (String.mk l) else none).getD "" = ""
        rw [hmk]
        simp
  | none =>
    rw [specFieldValue_open hc]
    show (extractFieldOpen text fieldName).getD "" = (openCapture true text fieldName).getD ""
    unfold extractFieldOpen
    cases ho : openCapture true text fieldName with
    | none => rfl
    | some p =>
      show (if p ≠ "" then some p else none).getD "" = (some p).getD ""
      by_cases hp : p ≠ ""
      · rw [if_pos hp]
      · rw [if_neg hp]
        rw [Classical.not_not] at hp
        subst hp
        rfl

theorem extractFieldOpen_scan {text fieldName v : String}
    (h : extractFieldOpen text fieldName = some v) :
    ∃ l, scanFirst (openMatchAt true fieldName.data) text.data = some l ∧
      l ≠ [] ∧ String.mk l = v := by
  unfold extractFieldOpen at h
  cases ho : openCapture true text fieldName with
  | none =>
    rw [ho] at h
    cases h
  | some p =>
    rw [ho] at h
    have h' : (if p ≠ "" then some p else none) = some v := h
    by_cases hp : p ≠ ""
    · rw [if_pos hp] at h'
      have hpv : p = v := Option.some.injEq _ _ |>.mp h'
      unfold openCapture at ho
      cases hs : scanFirst (openMatchAt true fieldName.data) text.data with
      | none =>
        rw [hs] at ho
        cases ho
      | some l =>
        rw [hs] at ho
        have hmk : String.mk l = p := by simpa using ho
        refine ⟨l, rfl, ?_, ?_⟩
        · intro h0
          rw [h0] at hmk
          exact hp hmk.symm
        · rw [hmk, hpv]
    · rw [if_neg hp] at h'
      cases h'

theorem extractField_scanOpen {text fieldName v : String}
    (hfa : ∀ c ∈ fieldName.data, asciiLower c ≠ '"')
    (h : extractField text fieldName = some v) :
    ∃ l, scanFirst (openMatchAt true fieldName.data) text.data = some l ∧ l ≠ [] := by
  unfold extractField at h
  cases hc : closedCapture true text fieldName with
  | some c =>
    rw [hc] at h
    have h' : (if c ≠ "" then some c else extractFieldOpen text fieldName) = some v := h
    by_cases hce : c ≠ ""
    · rw [if_pos hce] at h'
      unfold closedCapture at hc
      cases hs : scanFirst (closedMatchAt true fieldName.data) text.data with
      | none =>
        rw [hs] at hc
        cases hc
      | some l =>
        rw [hs] at hc
        have hmk : String.mk l = c := by simpa using hc
        refine ⟨l, scanClosed_imp_scanOpen hfa hs, ?_⟩
        intro h0
        rw [h0] at hmk
        exact hce hmk.symm
    · rw [if_neg hce] at h'
      obtain ⟨l, hs, hl, -⟩ := extractFieldOpen_scan h'
      exact ⟨l, hs, hl⟩
  | none =>
    rw [hc] at h
    obtain ⟨l, hs, hl, -⟩ := extractFieldOpen_scan h
    exact ⟨l, hs, hl⟩

theorem extractField_of_scanOpen {text fieldName : String}
    (hfa : ∀ c ∈ fieldName.data, asciiLower c ≠ '"') {l : List Char}
    (hs : scanFirst (openMatchAt true fieldName.data) text.data = some l)
    (hl : l ≠ []) :
    ∃ w, extractField text fieldName = some w ∧ w ≠ "" := by
  unfold extractField
  cases hc : closedCapture true text fieldName with
  | some c =>
    by_cases hce : c ≠ ""
    · refine ⟨c, ?_, hce⟩
      show (if c ≠ "" then some c else extractFieldOpen text fieldName) = some c
      rw [if_pos hce]
    · exfalso
      rw [Classical.not_not] at hce
      subst hce
      unfold closedCapture at hc
      cases hsc : scanFirst (closedMatchAt true fieldName.data) text.data with
      | none =>
        rw [hsc] at hc
        cases hc
      | some l' =>
        rw [hsc] at hc
        have hmk : String.mk l' = "" := by simpa using hc
        have hop := scanClosed_imp_scanOpen hfa hsc
        rw [hop] at hs
        have : l' = l := Option.some.injEq _ _ |>.mp hs
        rw [← this] at hl
        exact hl ((mk_eq_empty_iff l').mp hmk)
  | none =>
    refine ⟨String.mk l, ?_, ?_⟩
    · show extractFieldOpen text fieldName = some (String.mk l)
      unfold extractFieldOpen openCapture
      rw [hs]
      show (if String.mk l ≠ "" then some (String.mk l) else none) = some (String.mk l)
      rw [if_pos (fun h0 => hl ((mk_eq_empty_iff l).mp h0))]
    · exact fun h0 => hl ((mk_eq_empty_iff l).mp h0)

/-- Once `extractField` yields a value on a buffer, it yields a nonempty
value on every extension of that buffer. -/
theorem extractField_append {s t fieldName : String}
    (hfa : ∀ c ∈ fieldName.data, asciiLower c ≠ '"') {v : String}
    (h : extractField s fieldName = some v) :
    ∃ w, extractField (s ++ t) fieldName = some w ∧ w ≠ "" := by
  obtain ⟨l, hs, hl⟩ := extractField_scanOpen hfa h
  obtain ⟨r', hr', hne'⟩ := scanOpen_append hfa t.data hs hl
  have hs' : scanFirst (openMatchAt true fieldName.data) (s ++ t).data = some r' := by
    rw [String.data_append]
    exact hr'
  exact extractField_of_scanOpen hfa hs' hne'

/-- `tryParseJSON` lands on the per-field regex extraction exactly when the
whole-document parse and the brace-span parse both fail. -/
theorem tryParseJSON_fallback {text : String} (h1 : jsonParse text = none)
    (h2 : ∀ span, braceSpan text = some span → jsonParse span = none) :
    tryParseJSON text = fallbackObj text := by
  unfold tryParseJSON
  rw [h1]
  show (match braceSpan text with
    | some span =>
        match jsonParse span with
        | some j => j
        | none => fallbackObj text
    | none => fallbackObj text) = fallbackObj text
  cases hb : braceSpan text with
  | none => rfl
  | some span => simp only [h2 span hb]

/-- C1: whenever the whole-document parse fails and no balanced brace span
parses, `tryParseJSON` returns the object whose `developer` and `marketing`
entries each hold the first closed quoted value if the closed regex
matches, else the open (unterminated) quoted value if the open regex
matches, else the empty string — the spec-worded `specFieldValue`. -/
theorem claim_C1_fallback_extraction (text : String)
    (h1 : jsonParse text = none)
    (h2 : ∀ span, braceSpan text = some span → jsonParse span = none) :
    tryParseJSON text =
      .obj [("developer", .str (specFieldValue text "developer")),
            ("marketing", .str (specFieldValue text "marketing"))] := by
  rw [tryParseJSON_fallback h1 h2]
  unfold fallbackObj
  rw [extractField_getD_spec text "developer" (by decide),
      extractField_getD_spec text "marketing" (by decide)]

set_option maxHeartbeats 1000000 in
/-- Witness for C1 at the spec's scenario 3: the accumulated text
`\x7b"developer": "Fixed null check", "mark` extracts
`developer = "Fixed null check"` and `marketing = ""`. -/
theorem claim_C1_fallback_extraction_witness :
    (jsonParse "\x7b\"developer\": \"Fixed null check\", \"mark" = none ∧
     braceSpan "\x7b\"developer\": \"Fixed null check\", \"mark" = none) ∧
    tryParseJSON "\x7b\"developer\": \"Fixed null check\", \"mark" =
      .obj [("developer", .str "Fixed null check"), ("marketing", .str "")] := by
  have h1 : jsonParse "\x7b\"developer\": \"Fixed null check\", \"mark" = none := by
    simp [jsonParse, parseValue, parseFields, parseItems, parseStringBody, skipJsonWs, jsonWs]
  have hb : braceSpan "\x7b\"developer\": \"Fixed null check\", \"mark" = none := rfl
  have h2 : ∀ span,
      braceSpan "\x7b\"developer\": \"Fixed null check\", \"mark" = some span →
      jsonParse span = none := by
    intro span hs
    rw [hb] at hs
    cases hs
  have h := claim_C1_fallback_extraction _ h1 h2
  refine ⟨⟨h1, hb⟩, ?_⟩
  rw [h]
  rfl

set_option maxHeartbeats 4000000 in
/-- C2: counterexample — with the buffer `\x7b"developer": "a` the tracked
developer note is the non-empty `"a"`; appending the token
`", "developer": ""\x7d` makes the whole buffer parse as JSON whose
duplicate `developer` key resolves (last wins) to `""`, and the loop
overwrites the note with the empty string: the tracked value regresses from
non-empty back to empty as tokens are appended. -/
theorem claim_C2_counterexample :
    (runNotes ["\x7b\"developer\": \"a"]).1.dev = Json.str "a" ∧
    (runNotes ["\x7b\"developer\": \"a", "\", \"developer\": \"\"\x7d"]).1.dev
      = Json.str "" := by
  constructor
  · simp [runNotes, noteStep, noteUpdates, initialNoteState, tryParseJSON, jsonParse, parseValue, parseFields,
      parseItems, parseStringBody, skipJsonWs, jsonWs, braceSpan, fallbackObj, tryFieldUpdate,
      catchFieldUpdate, jsGet, extractField, extractFieldOpen, closedCapture, openCapture,
      scanFirst, closedMatchAt, openMatchAt, matchToks, keyPat, asciiLower, regexWs]
  · simp [runNotes, noteStep, noteUpdates, initialNoteState, tryParseJSON, jsonParse, parseValue, parseFields,
      parseItems, parseStringBody, skipJsonWs, jsonWs, braceSpan, fallbackObj, tryFieldUpdate,
      catchFieldUpdate, jsGet, extractField, extractFieldOpen, closedCapture, openCapture,
      scanFirst, closedMatchAt, openMatchAt, matchToks, keyPat, asciiLower, regexWs]

/-- C2 (amended): the non-regression the spec states does hold for the
regex fallback extractor itself — once `extractField` reports a value on a
buffer, it reports a non-empty value on every extension of that buffer.
(The full loop can still regress through the strict-parse path, as the
counterexample shows.) -/
theorem claim_C2_fallback_monotonic (s t fieldName : String)
    (hf : fieldName = "developer" ∨ fieldName = "marketing") {v : String}
    (h : extractField s fieldName = some v) :
    ∃ w, extractField (s ++ t) fieldName = some w ∧ w ≠ "" := by
  have hfa : ∀ c ∈ fieldName.data, asciiLower c ≠ '"' := by
    rcases hf with h1 | h1 <;> subst h1 <;> decide
  exact extractField_append hfa h

/-- Witness for C2's amended theorem on the buffer `\x7b"developer": "a`
extended by `bc`. -/
theorem claim_C2_fallback_monotonic_witness :
    extractField "\x7b\"developer\": \"a" "developer" = some "a" ∧
    ∃ w, extractField ("\x7b\"developer\": \"a" ++ "bc") "developer" = some w ∧ w ≠ "" :=
  ⟨rfl, claim_C2_fallback_monotonic "\x7b\"developer\": \"a" "bc" "developer"
    (Or.inl rfl) rfl⟩

/-- C3: the extractor is deterministic — two invocations of `tryParseJSON`
on the same string are identical, in particular in their `developer` and
`marketing` entries.  (The embedding is a pure function of the input text,
as is the source: it reads no state besides its argument.) -/
theorem claim_C3_deterministic (text : String) :
    tryParseJSON text = tryParseJSON text ∧
    jsGet (tryParseJSON text) "developer" = jsGet (tryParseJSON text) "developer" ∧
    jsGet (tryParseJSON text) "marketing" = jsGet (tryParseJSON text) "marketing" :=
  ⟨rfl, rfl, rfl⟩

/-- C4: a diff longer than 15000 characters is sent upstream as exactly its
first 15000 characters followed by the marker `... [truncated]`; a diff of
at most 15000 characters is embedded unchanged; either way the (possibly
truncated) diff is embedded verbatim in the upstream user message. -/
theorem claim_C4_truncation (prId description diff : String) :
    (diff.length > 15000 →
      truncatedDiff diff = String.mk (diff.data.take 15000) ++ "... [truncated]") ∧
    (diff.length ≤ 15000 → truncatedDiff diff = diff) ∧
    ∃ pre post, userPrompt prId description diff = pre ++ (truncatedDiff diff ++ post) := by
  refine ⟨?_, ?_, ?_⟩
  · intro h
    unfold truncatedDiff
    rw [if_pos h]
  · intro h
    unfold truncatedDiff
    rw [if_neg (by omega)]
  · refine ⟨"PR #" ++ prId ++ ": " ++ description ++ "\n\nHere's the diff:\n```\n",
      "\n```\n\nBased on this diff, generate both developer and marketing release notes.", ?_⟩
    unfold userPrompt
    simp [String.append_assoc]

/-- Witness for C4 on a 15001-character diff and on a short one. -/
theorem claim_C4_truncation_witness :
    (String.mk (List.replicate 15001 'a')).length > 15000 ∧
    truncatedDiff (String.mk (List.replicate 15001 'a')) =
      String.mk (List.replicate 15000 'a') ++ "... [truncated]" ∧
    ("short" : String).length ≤ 15000 ∧
    truncatedDiff "short" = "short" := by
  have hlen : (String.mk (List.replicate 15001 'a')).length > 15000 := by
    show (List.replicate 15001 'a').length > 15000
    rw [List.length_replicate]
    omega
  have h := claim_C4_truncation "42" "d" (String.mk (List.replicate 15001 'a'))
  have h2 := claim_C4_truncation "42" "d" "short"
  refine ⟨hlen, ?_, by decide, h2.2.1 (by decide)⟩
  rw [h.1 hlen]
  have htak : ((String.mk (List.replicate 15001 'a')).data.take 15000)
      = List.replicate 15000 'a' := by
    show (List.replicate 15001 'a').take 15000 = List.replicate 15000 'a'
    rw [List.take_replicate]
    norm_num
  rw [htak]

/-- C6: counterexample — a streaming request whose session id is absent
from the store but whose `prId` parameter is missing gets the immediate
400 bad-request response, not the claimed 404 not-found. -/
theorem claim_C6_counterexample :
    storeGet [] "sid" = none ∧
    getStream (some "sid") none (some "desc") [] = (.badRequest, []) :=
  ⟨rfl, rfl⟩

/-- C6 (amended): when all three query parameters are present (truthy), a
session id absent from the diff store yields the immediate not-found
response and leaves the store unchanged; when a parameter is missing the
response is the 400 bad-request instead. -/
theorem claim_C6_unknown_session (sessionId prId description : Option String)
    (store : List (String × String))
    (hs : truthy sessionId = true) (hp : truthy prId = true)
    (hd : truthy description = true)
    (hmiss : storeGet store (sessionId.getD "") = none) :
    getStream sessionId prId description store = (.notFound, store) := by
  unfold getStream
  rw [hs, hp, hd, hmiss]
  rfl

/-- Witness for C6's amended theorem at an empty store. -/
theorem claim_C6_unknown_session_witness :
    (truthy (some "s") = true ∧ truthy (some "42") = true ∧ truthy (some "d") = true ∧
     storeGet [] ((some "s").getD "") = none) ∧
    getStream (some "s") (some "42") (some "d") [] = (.notFound, []) :=
  ⟨⟨rfl, rfl, rfl, rfl⟩,
    claim_C6_unknown_session (some "s") (some "42") (some "d") [] rfl rfl rfl rfl⟩

theorem takeWhile_append_stop {p : Char → Bool} {xs ys : List Char} {c : Char}
    (hxs : ∀ x ∈ xs, p x = true) (hc : p c = false) :
    ((xs ++ c :: ys).takeWhile p = xs) ∧ ((xs ++ c :: ys).dropWhile p = c :: ys) := by
  induction xs with
  | nil =>
    rw [List.nil_append]
    constructor
    · rw [List.takeWhile_cons_of_neg (by simp [hc])]
    · rw [List.dropWhile_cons_of_neg (by simp [hc])]
  | cons x t ih =>
    have hx : p x = true := hxs x (List.mem_cons_self x t)
    have ht : ∀ y ∈ t, p y = true := fun y hy => hxs y (List.mem_cons_of_mem x hy)
    obtain ⟨ih1, ih2⟩ := ih ht
    constructor
    · rw [List.cons_append, List.takeWhile_cons_of_pos (by simp [hx]), ih1]
    · rw [List.cons_append, List.dropWhile_cons_of_pos (by simp [hx]), ih2]

theorem mkSessionId_data (a : String) (n : Nat) :
    (mkSessionId a n).data = a.data ++ '-' :: natDecimal n := by
  show (a ++ "-" ++ String.mk (natDecimal n)).data = _
  rw [String.data_append, String.data_append]
  rw [List.append_assoc]
  rfl

theorem mkSessionId_ne (a : String) (n : Nat) : mkSessionId a n ≠ a := by
  intro h
  have hlen : (mkSessionId a n).data.length = a.data.length :=
    congrArg (fun s => s.data.length) h
  rw [mkSessionId_data, List.length_append, List.length_cons] at hlen
  omega

theorem mkSessionId_inj {a b : String} {n m : Nat}
    (h : mkSessionId a n = mkSessionId b m) : a = b ∧ n = m := by
  have hd : a.data ++ '-' :: natDecimal n = b.data ++ '-' :: natDecimal m := by
    have hdd := congrArg String.data h
    rwa [mkSessionId_data, mkSessionId_data] at hdd
  have hrev : (natDecimal n).reverse ++ '-' :: a.data.reverse
      = (natDecimal m).reverse ++ '-' :: b.data.reverse := by
    have hr := congrArg List.reverse hd
    simpa [List.reverse_append, List.append_assoc] using hr
  have hp : ∀ k : Nat, ∀ x ∈ (natDecimal k).reverse, (x != '-') = true := by
    intro k x hx
    rw [List.mem_reverse] at hx
    have hne := (digit_not_special (natDecimal_digits k x hx)).2.2.2.2.2.2.2.2.2
    simpa using hne
  have hstop : ((('-' : Char) != '-') = false) := by decide
  have h1 : ((natDecimal n).reverse ++ '-' :: a.data.reverse).takeWhile
        (fun x => x != '-') = (natDecimal n).reverse ∧
      ((natDecimal n).reverse ++ '-' :: a.data.reverse).dropWhile
        (fun x => x != '-') = '-' :: a.data.reverse :=
    takeWhile_append_stop (hp n) hstop
  have h2 : ((natDecimal m).reverse ++ '-' :: b.data.reverse).takeWhile
        (fun x => x != '-') = (natDecimal m).reverse ∧
      ((natDecimal m).reverse ++ '-' :: b.data.reverse).dropWhile
        (fun x => x != '-') = '-' :: b.data.reverse :=
    takeWhile_append_stop (hp m) hstop
  have htake : (natDecimal n).reverse = (natDecimal m).reverse := by
    rw [← h1.1, ← h2.1, hrev]
  have hdrop : ('-' :: a.data.reverse) = ('-' :: b.data.reverse) := by
    rw [← h1.2, ← h2.2, hrev]
  have hnd : natDecimal n = natDecimal m := by
    have hr := congrArg List.reverse htake
    simpa using hr
  have hnm : n = m := by
    have hv := congrArg digitsVal hnd
    rwa [digitsVal_natDecimal, digitsVal_natDecimal] at hv
  have hab : a = b := by
    injection hdrop with _ ht
    have hdata : a.data = b.data := by
      have hr := congrArg List.reverse ht
      simpa using hr
    cases a
    cases b
    exact congrArg String.mk hdata
  exact ⟨hab, hnm⟩

/-- C7: counterexample — two distinct submissions with the same item id in
the same millisecond (different diffs) receive the same session
identifier: the id-plus-timestamp scheme does not guarantee uniqueness
across distinct submissions. -/
theorem claim_C7_counterexample :
    (⟨some "42", some "fix bug", some "- old"⟩ : SubmitRequest) ≠
      (⟨some "42", some "fix bug", some "+ new"⟩ : SubmitRequest) ∧
    (postSubmit ⟨some "42", some "fix bug", some "- old"⟩ 1700000000000 []).1 =
      (postSubmit ⟨some "42", some "fix bug", some "+ new"⟩ 1700000000000 []).1 ∧
    ∃ sid, (postSubmit ⟨some "42", some "fix bug", some "- old"⟩ 1700000000000 []).1 =
      .ok sid := by
  refine ⟨?_, rfl, ⟨mkSessionId "42" 1700000000000, rfl⟩⟩
  intro h
  exact absurd (congrArg SubmitRequest.diff h) (by decide)

/-- C7 (amended): a submission with all fields present returns the session
id `prId ++ "-" ++ decimal timestamp` — distinct from the id alone — and
the session id determines the `(prId, timestamp)` pair, so two submissions
collide exactly when they share both the item id and the millisecond. -/
theorem claim_C7_session_id (req : SubmitRequest) (now : Nat)
    (store : List (String × String))
    (hp : truthy req.prId = true) (hd : truthy req.description = true)
    (hdiff : truthy req.diff = true) :
    (postSubmit req now store).1 = .ok (mkSessionId (req.prId.getD "") now) ∧
    mkSessionId (req.prId.getD "") now ≠ req.prId.getD "" ∧
    ∀ prId2 now2, mkSessionId (req.prId.getD "") now = mkSessionId prId2 now2 →
      req.prId.getD "" = prId2 ∧ now = now2 := by
  refine ⟨?_, mkSessionId_ne _ _, fun p2 n2 h => mkSessionId_inj h⟩
  unfold postSubmit
  rw [hp, hd, hdiff]
  rfl

/-- Witness for C7's amended theorem: submitting id 42 at millisecond 7
returns the session id `42-7`, distinct from `42`. -/
theorem claim_C7_session_id_witness :
    (truthy (some "42") = true ∧ truthy (some "fix bug") = true ∧
     truthy (some "- old\n+ new") = true) ∧
    (postSubmit ⟨some "42", some "fix bug", some "- old\n+ new"⟩ 7 []).1 = .ok "42-7" ∧
    ("42-7" : String) ≠ "42" := by
  have h := claim_C7_session_id ⟨some "42", some "fix bug", some "- old\n+ new"⟩ 7 []
    (by decide) (by decide) (by decide)
  have h7 : natDecimal 7 = ['7'] := by
    rw [natDecimal_eq]
    decide
  have hsid : mkSessionId "42" 7 = "42-7" := by
    show "42" ++ "-" ++ String.mk (natDecimal 7) = "42-7"
    rw [h7]
    rfl
  refine ⟨⟨by decide, by decide, by decide⟩, ?_, ?_⟩
  · rw [← hsid]
    exact h.1
  · rw [← hsid]
    exact h.2.1

theorem noteStep_shape (st : NoteState) (tok : String) :
    noteStep st tok = (st, none) ∨
    ∃ d m, noteStep st tok =
      ({ acc := st.acc ++ tok, dev := d, mark := m },
       some (.chunk tok (st.acc ++ tok) d m)) := by
  unfold noteStep
  by_cases h : tok = ""
  · rw [if_pos h]
    exact Or.inl rfl
  · rw [if_neg h]
    exact Or.inr ⟨_, _, rfl⟩

theorem noteStep_some_chunk {st : NoteState} {tok : String} {st' : NoteState} {e : Event}
    (h : noteStep st tok = (st', some e)) : e.isError = false := by
  rcases noteStep_shape st tok with h0 | ⟨d, m, h0⟩
  · rw [h0] at h
    have h2 := congrArg Prod.snd h
    cases h2
  · rw [h0] at h
    have h2 := congrArg Prod.snd h
    have he : Event.chunk tok (st.acc ++ tok) d m = e := by simpa using h2
    rw [← he]
    rfl

theorem foldl_step_events (tokens : List String) :
    ∀ (p : NoteState × List Event),
      ∀ e ∈ (tokens.foldl
          (fun p tok =>
            let (st', ev) := noteStep p.1 tok
            (st', p.2 ++ ev.toList)) p).2,
        e ∈ p.2 ∨ e.isError = false := by
  induction tokens with
  | nil =>
    intro p e he
    exact Or.inl he
  | cons t ts ih =>
    intro p e he
    rw [List.foldl_cons] at he
    rcases ih _ e he with hin | herr
    · rcases hns : noteStep p.1 t with ⟨st2, ev⟩
      rw [hns] at hin
      have hin2 : e ∈ p.2 ++ ev.toList := hin
      rw [List.mem_append] at hin2
      rcases hin2 with h2 | h2
      · exact Or.inl h2
      · right
        cases ev with
        | none => cases h2
        | some e2 =>
          have he2 : e = e2 := by simpa using h2
          rw [he2]
          exact noteStep_some_chunk hns
    · exact Or.inr herr

set_option maxHeartbeats 1000000 in
/-- C5: counterexample — on a stream whose single token is not JSON, the
orchestrator still ends with a `complete` event carrying the raw
accumulated text, and emits no error event of any kind: there is no strict
final parse and no parse-failure error path. -/
theorem claim_C5_counterexample :
    jsonParse "not json" = none ∧
    generateNotesEvents ["not json"] =
      [.status "generating",
       .chunk "not json" "not json" (.str "") (.str ""),
       .complete "not json"] ∧
    (generateNotesEvents ["not json"]).all (fun e => !e.isError) = true := by
  have h1 : jsonParse "not json" = none := by
    simp [jsonParse, parseValue, parseFields, parseItems, parseStringBody, skipJsonWs, jsonWs]
  have h2 : generateNotesEvents ["not json"] =
      [.status "generating",
       .chunk "not json" "not json" (.str "") (.str ""),
       .complete "not json"] := by
    simp [generateNotesEvents, runNotes, noteStep, noteUpdates, initialNoteState, tryParseJSON,
      jsonParse, parseValue, parseFields, parseItems, parseStringBody, skipJsonWs, jsonWs,
      braceSpan, fallbackObj, tryFieldUpdate, catchFieldUpdate, jsGet, extractField,
      extractFieldOpen, closedCapture, openCapture, scanFirst, closedMatchAt, openMatchAt,
      matchToks, keyPat, asciiLower, regexWs]
  refine ⟨h1, h2, ?_⟩
  rw [h2]
  rfl

/-- C5 (amended): on stream end the orchestrator always emits a final
`complete` event carrying the raw accumulated text — with no strict parse
of it — and never emits an error event on a delivered stream, whether or
not the accumulated text is valid JSON or has the required fields. -/
theorem claim_C5_stream_end (tokens : List String) :
    (generateNotesEvents tokens).getLast? =
      some (Event.complete (runNotes tokens).1.acc) ∧
    ∀ e ∈ generateNotesEvents tokens, e.isError = false := by
  rcases hr : runNotes tokens with ⟨st, evs⟩
  have hg : generateNotesEvents tokens
      = .status "generating" :: (evs ++ [.complete st.acc]) := by
    unfold generateNotesEvents
    rw [hr]
  rw [hg]
  constructor
  · show (Event.status "generating" :: (evs ++ [Event.complete st.acc])).getLast?
        = some (Event.complete st.acc)
    rw [← List.cons_append, List.getLast?_concat]
  · intro e he
    rw [List.mem_cons] at he
    rcases he with he | he
    · rw [he]
      rfl
    · rw [List.mem_append] at he
      rcases he with he | he
      · have hm : e ∈ (runNotes tokens).2 := by
          rw [hr]
          exact he
        have hm2 : e ∈ ((tokens.foldl
            (fun p tok =>
              let (st', ev) := noteStep p.1 tok
              (st', p.2 ++ ev.toList)) (initialNoteState, ([] : List Event)))).2 := hm
        rcases foldl_step_events tokens (initialNoteState, []) e hm2 with h0 | h0
        · cases h0
        · exact h0
      · rw [List.mem_singleton] at he
        rw [he]
        rfl

/-- Witness for C10 at a store holding unparseable data under both keys. -/
theorem claim_C10_reads_default_witness :
    (jsonParse "\x7b" = none ∧ jsonParse "[1," = none) ∧
    getAllPRs ⟨true, some "\x7b", some "[1,"⟩ = [] ∧
    getPRById ⟨true, some "\x7b", some "[1,"⟩ "x" = none ∧
    getStreamingSession ⟨true, some "\x7b", some "[1,"⟩ "x" = none :=
  ⟨⟨rfl, rfl⟩, claim_C10_reads_default ⟨true, some "\x7b", some "[1,"⟩ "x"
    (Or.inr (Or.inr ⟨"\x7b", rfl, rfl⟩)) (Or.inr (Or.inr ⟨"[1,", rfl, rfl⟩))⟩

end DiffDigest
